import Mathlib

/-!
ESC_objets_connectes: keypad scanner and LCD driver.

A shallow embedding of `components/keypad/keypad.c` and `components/lcd/lcd.c`.

* GPIO outputs are a map from pin number to the level last written; column
  inputs are supplied by an environment that is asked once per
  `gpio_get_level` call.
* Blocking delays and bus writes are recorded as events, so that the order and
  number of hardware interactions can be stated.
-/

namespace Keypad

/-! ## components/keypad/keypad.c -/

/-- The key table `char keys[4][4]`. -/
def keys : List (List Char) :=
  [['5', '6', 'B', '7'],
   ['8', '9', 'C', '*'],
   ['0', '#', 'D', '1'],
   ['2', '3', 'A', '4']]

/-- The pin table `int rowPins[4]` (driven outputs). -/
def rowPins : List Nat := [13, 19, 14, 27]

/-- The pin table `int colPins[4]` (sensed inputs). -/
def colPins : List Nat := [26, 25, 33, 32]

/-- The value of the C literal for the NUL character, returned when no key is found. -/
def NUL : Char := Char.ofNat 0

/-- The array read `keys[row][col]`. -/
def keyAt (row col : Nat) : Char := (keys.getD row []).getD col NUL

/-- The array read `rowPins[row]`. -/
def rowPin (row : Nat) : Nat := rowPins.getD row 0

/-- The array read `colPins[col]`. -/
def colPin (col : Nat) : Nat := colPins.getD col 0

/-- The GPIO block as the scanner sees it: the level last written to every pin and
the number of input samples taken so far. -/
structure Gpio where
  level : Nat → Nat
  samples : Nat

/-- The behaviour of the input pins: the level read by the `n`-th sample, given the
output levels at that moment and the pin that is read. -/
abbrev Inputs := Nat → (Nat → Nat) → Nat → Nat

/-- Hardware interactions of one scan. A `sample` carries the loop position it was
taken at, whether it is the re-check of line 74, the levels of the four row
outputs at that moment, and the level read. -/
inductive KEvent where
  | setLevel (pin lvl : Nat)
  | sample (row col : Nat) (recheck : Bool) (rows : List Nat) (lvl : Nat)
  | delayMs (ms : Nat)
  deriving DecidableEq, Repr

/-- The call `gpio_set_level(pin, lvl)`. -/
def gpio_set_level (pin lvl : Nat) (g : Gpio) : Gpio :=
  { g with level := fun p => if p = pin then lvl else g.level p }

/-- The call `gpio_get_level(pin)`: asks the environment and counts the sample. -/
def gpio_get_level (env : Inputs) (pin : Nat) (g : Gpio) : Nat × Gpio :=
  (env g.samples g.level pin, { g with samples := g.samples + 1 })

/-- The levels of the four row outputs, in row order. -/
def rowLevels (g : Gpio) : List Nat := rowPins.map g.level

/-- The first loop of `keypad_init`: every row pin is made an output at level 1. -/
def keypad_init (g : Gpio) : Gpio :=
  rowPins.foldl (fun acc pin => gpio_set_level pin 1 acc) g

/-- What a piece of the scan produces: a value, the GPIO block afterwards and the
hardware interactions in order. -/
structure Out (α : Type) where
  val : α
  gpio : Gpio
  events : List KEvent

/-- The inner loop `for (col ...)` of `keypad_scan`, over the columns still to visit.
`some k` is the early `return keys[row][col]`; `none` means the loop ran out. -/
def scanCols (env : Inputs) (row : Nat) : List Nat → Gpio → Out (Option Char)
  | [], g => ⟨none, g, []⟩
  | col :: cols, g =>
    let r1 := gpio_get_level env (colPin col) g
    let e1 := KEvent.sample row col false (rowLevels g) r1.1
    if r1.1 = 0 then
      -- vTaskDelay(pdMS_TO_TICKS(100))
      let r2 := gpio_get_level env (colPin col) r1.2
      let e2 := KEvent.sample row col true (rowLevels r1.2) r2.1
      if r2.1 = 0 then
        ⟨some (keyAt row col), gpio_set_level (rowPin row) 1 r2.2,
          [e1, KEvent.delayMs 100, e2, KEvent.setLevel (rowPin row) 1]⟩
      else
        let rest := scanCols env row cols r2.2
        ⟨rest.val, rest.gpio, e1 :: KEvent.delayMs 100 :: e2 :: rest.events⟩
    else
      let rest := scanCols env row cols r1.2
      ⟨rest.val, rest.gpio, e1 :: rest.events⟩

/-- The outer loop `for (row ...)` of `keypad_scan`, over the rows still to visit. -/
def scanRows (env : Inputs) : List Nat → Gpio → Out Char
  | [], g => ⟨NUL, g, []⟩
  | row :: rows, g =>
    let g1 := gpio_set_level (rowPin row) 0 g
    let inner := scanCols env row [0, 1, 2, 3] g1
    match inner.val with
    | some k => ⟨k, inner.gpio, KEvent.setLevel (rowPin row) 0 :: inner.events⟩
    | none =>
      let g2 := gpio_set_level (rowPin row) 1 inner.gpio
      let rest := scanRows env rows g2
      ⟨rest.val, rest.gpio,
        KEvent.setLevel (rowPin row) 0 :: (inner.events ++ KEvent.setLevel (rowPin row) 1 :: rest.events)⟩

/-- The function `char keypad_scan(void)`. -/
def keypad_scan (env : Inputs) (g : Gpio) : Out Char :=
  scanRows env [0, 1, 2, 3] g

/-- Inputs held steady: a column pin reads 0 exactly when some row output is at 0 and
the key joining that row to that column is pressed (pull-up otherwise). -/
def steadyInputs (pressed : Nat → Nat → Bool) : Inputs :=
  fun _ level pin =>
    if (List.range 4).any (fun r => (List.range 4).any (fun c =>
        decide (colPin c = pin) && decide (level (rowPin r) = 0) && pressed r c))
    then 0 else 1

/-- All outputs high, no sample taken yet. -/
def idle : Gpio := ⟨fun _ => 1, 0⟩

/-- Whether an event is a sample that read the active level 0. -/
def isActiveSample : KEvent → Bool
  | KEvent.sample _ _ _ _ lvl => decide (lvl = 0)
  | _ => false

/-- Row output levels with row `r` driven low and the three others high. -/
def oneLow (r : Nat) : List Nat := (List.range 4).map (fun i => if i = r then 0 else 1)

/-- The key the scan is expected to report for steady inputs: rows in order, and within
a row the first pressed column. -/
def rowMajorFirstKey (pressed : Nat → Nat → Bool) : List Nat → Char
  | [] => NUL
  | r :: rows =>
    match [0, 1, 2, 3].find? (fun c => pressed r c) with
    | some c => keyAt r c
    | none => rowMajorFirstKey pressed rows

/-- Two keys held down: `C` at (1, 2) and `0` at (2, 0). -/
def twoKeys : Nat → Nat → Bool := fun r c => decide (r = 1 ∧ c = 2) || decide (r = 2 ∧ c = 0)

/-- A contact that reads active on the very first sample only. -/
def bounceOnce : Inputs := fun n _ _ => if n = 0 then 0 else 1

end Keypad

namespace Lcd

/-! ## components/lcd/lcd.c -/

/-- Register select: 0 = command, 1 = data. -/
def PIN_RS : Nat := 0x01
/-- Read/write: 0 = write, 1 = read. -/
def PIN_RW : Nat := 0x02
/-- Enable: the controller latches on its falling edge. -/
def PIN_EN : Nat := 0x04
/-- Backlight. -/
def PIN_BL : Nat := 0x08

/-- What the driver does to the outside world, in order: a byte handed to the port
expander, or a blocking delay. -/
inductive LcdEvent where
  | write (data : Nat)
  | delayUs (us : Nat)
  | delayMs (ms : Nat)
  deriving DecidableEq, Repr

/-- The function `lcd_write(uint8_t data)`: one bus transaction carrying `data`. Here and
below a `uint8_t` parameter holds its argument reduced modulo 256. -/
def lcd_write (data : Nat) : List LcdEvent :=
  [LcdEvent.write (data % 256)]

/-- The function `lcd_pulse(uint8_t data)`. The operand `~PIN_EN` is the 32-bit pattern
`0xFFFFFFFF ^ PIN_EN`; the argument of `lcd_write` is truncated to 8 bits there. -/
def lcd_pulse (data : Nat) : List LcdEvent :=
  let data := data % 256
  lcd_write (data ||| PIN_EN) ++ [LcdEvent.delayUs 600] ++
  lcd_write (data &&& (0xFFFFFFFF ^^^ PIN_EN)) ++ [LcdEvent.delayUs 600]

/-- The function `lcd_send(uint8_t value, uint8_t mode)`. -/
def lcd_send (value mode : Nat) : List LcdEvent :=
  let value := value % 256
  let mode := mode % 256
  let high := (value &&& 0xF0) % 256
  let low := ((value <<< 4) &&& 0xF0) % 256
  lcd_pulse (high ||| mode ||| PIN_BL) ++ lcd_pulse (low ||| mode ||| PIN_BL)

/-- The function `lcd_cmd(uint8_t cmd)`. -/
def lcd_cmd (cmd : Nat) : List LcdEvent :=
  let cmd := cmd % 256
  lcd_send cmd 0x00 ++ [LcdEvent.delayMs 2]

/-- The function `lcd_data(uint8_t data)`. -/
def lcd_data (data : Nat) : List LcdEvent :=
  let data := data % 256
  lcd_send data PIN_RS ++ [LcdEvent.delayUs 600]

/-- The function `lcd_clear()`. -/
def lcd_clear : List LcdEvent :=
  lcd_cmd 0x01 ++ [LcdEvent.delayMs 5]

/-- The function `lcd_init()`. -/
def lcd_init : List LcdEvent :=
  [LcdEvent.delayMs 50] ++
  lcd_write 0x30 ++ [LcdEvent.delayMs 5] ++
  lcd_write 0x30 ++ [LcdEvent.delayUs 600] ++
  lcd_write 0x20 ++ [LcdEvent.delayMs 5] ++
  lcd_cmd 0x28 ++ lcd_cmd 0x0C ++ lcd_cmd 0x06 ++ lcd_clear

/-- The table `static const uint8_t offsets[]` of `lcd_set_cursor`. -/
def offsets : List Nat := [0x00, 0x40]

/-- The function `lcd_set_cursor(int row, int col)`. The read `offsets[row]` is defined for
`row` 0 and 1 only; the `int` value `0x80 | (col + offsets[row])` is converted to
`uint8_t` at the call of `lcd_cmd`. -/
def lcd_set_cursor (row col : Int) : Option (List LcdEvent) :=
  if 0 ≤ row then
    (offsets.get? row.toNat).map (fun off => lcd_cmd (Int.lor 0x80 (col + off) % 256).toNat)
  else none

/-- The function `lcd_print(const char *str)`, over the bytes found from `str` on: the loop
stops at the first NUL byte (the end of the list stands for the terminator). -/
def lcd_print : List Nat → List LcdEvent
  | [] => []
  | c :: rest => if c = 0 then [] else lcd_data c ++ lcd_print rest

/-- The bytes handed to the expander, in order. -/
def writes : List LcdEvent → List Nat
  | [] => []
  | LcdEvent.write b :: es => b :: writes es
  | _ :: es => writes es

/-! ### A simulated bus and controller

These are not part of `lcd.c`: they are the measuring device the properties of the driver
are stated against. The observer of the wire watches the enable bit of the bytes that
reach the expander, takes the byte present on each falling edge of enable, and pairs the
upper halves of two such bytes (high nibble first) into one transferred byte, tagged with
the register-select bit. The controller executes what was transferred. -/

/-- The bytes present at a falling edge of enable; `prevEn` is the enable bit of the
byte before. -/
def latched : Bool → List Nat → List Nat
  | _, [] => []
  | prevEn, b :: bs =>
    let en := b &&& PIN_EN != 0
    if prevEn && !en then b :: latched en bs else latched en bs

/-- Latched bytes paired into transfers: register select (true = data) and the byte. -/
def pairNibbles : List Nat → List (Bool × Nat)
  | hi :: lo :: rest =>
    (hi &&& PIN_RS != 0, (hi &&& 0xF0) ||| ((lo &&& 0xF0) >>> 4)) :: pairNibbles rest
  | _ => []

/-- The transfers a controller in 4-bit mode sees in a sequence of expander bytes. -/
def decode (ws : List Nat) : List (Bool × Nat) :=
  pairNibbles (latched false ws)

/-- The simulated controller: the character stored at each display address and the
address counter. -/
structure Display where
  ddram : Nat → Nat
  addr : Nat

/-- The code of the blank character. -/
def BLANK : Nat := 0x20

/-- The cleared display: every cell blank, address 0. -/
def Display.blank : Display := ⟨fun _ => BLANK, 0⟩

/-- One transfer executed by the simulated controller: clear (0x01) blanks every cell
and sets the address to 0, set-address (bit 7) loads the address counter, a data byte is
stored at the address counter, which then advances; other commands leave cells and
address alone. -/
def Display.exec (d : Display) : Bool × Nat → Display
  | (false, cmd) =>
    if cmd = 0x01 then Display.blank
    else if 0x80 ≤ cmd then { d with addr := cmd - 0x80 }
    else d
  | (true, ch) =>
    { ddram := fun a => if a = d.addr then ch else d.ddram a, addr := (d.addr + 1) % 0x80 }

/-- The display after the controller has seen a sequence of driver events. -/
def Display.run (d : Display) (es : List LcdEvent) : Display :=
  (decode (writes es)).foldl Display.exec d

/-- The four bytes one `lcd_send(v, m)` is expected to put on the wire: high nibble with
enable high then low, low nibble with enable high then low. -/
def sendBytes (v m : Nat) : List Nat :=
  [(v &&& 0xF0) ||| m ||| PIN_BL ||| PIN_EN, (v &&& 0xF0) ||| m ||| PIN_BL,
   ((v <<< 4) &&& 0xF0) ||| m ||| PIN_BL ||| PIN_EN, ((v <<< 4) &&& 0xF0) ||| m ||| PIN_BL]

/-- The display address of the cell at `(row, col)`. -/
def cellAddr (row col : Nat) : Nat := col + offsets.getD row 0

/-- The enable bit of the last of the bytes `ws`, or `prevEn` when there is none. -/
def endEn (prevEn : Bool) (ws : List Nat) : Bool :=
  ws.foldl (fun _ b => b &&& PIN_EN != 0) prevEn

end Lcd

namespace Lcd

/-! ### The driver on a bus that can fail -/

/-- The I2C bus as the driver meets it: the `esp_err_t` that `i2c_master_cmd_begin` returns
for the `n`-th transaction of the run, carrying the byte `data` (0 is `ESP_OK`). -/
abbrev Bus := Nat → Nat → Int

/-- One call of `i2c_master_cmd_begin` for a write of `byte`: the result the bus gives,
and the list of transactions attempted so far (byte and result) with this one added. -/
def transact (bus : Bus) (byte : Nat) (log : List (Nat × Int)) : Int × List (Nat × Int) :=
  (bus log.length byte, log ++ [(byte, bus log.length byte)])

/-- The function `lcd_write(uint8_t data)` on such a bus. The function is `void`: the value
of `i2c_master_cmd_begin` is not stored, tested or returned. -/
def lcd_write_bus (bus : Bus) (data : Nat) (log : List (Nat × Int)) : Unit × List (Nat × Int) :=
  let data := data % 256
  let r := transact bus data log
  ((), r.2)

/-- A driver operation run on a bus: every byte the operation hands to the expander is one
transaction, the delays do not touch the bus. The operations are `void`. -/
def perform (bus : Bus) : List LcdEvent → List (Nat × Int) → Unit × List (Nat × Int)
  | [], log => ((), log)
  | LcdEvent.write b :: es, log => perform bus es (transact bus b log).2
  | _ :: es, log => perform bus es log

/-- A bus on which every transaction is acknowledged. -/
def ackBus : Bus := fun _ _ => 0

/-- A bus on which no transaction is acknowledged (`ESP_FAIL`). -/
def nakBus : Bus := fun _ _ => -1

end Lcd

namespace Leds

/-! ## components/led/led.c -/

/-- The type `Led` of `led.h`: the pin and the recorded state. -/
structure Led where
  gpio : Nat
  state : Nat
  deriving DecidableEq, Repr

def LED_GPIO_EP1 : Nat := 5
def LED_GPIO_EP2 : Nat := 4
def LED_GPIO_ERR : Nat := 2

/-- Duration of a dot, in milliseconds. -/
def DOT : Nat := 200
/-- Duration of a dash. -/
def DASH : Nat := 3 * DOT
/-- Pause after each symbol. -/
def SYMBOL_SPACE : Nat := DOT
/-- Pause after each letter. -/
def LETTER_SPACE : Nat := 5 * DOT
/-- Pause for a space character. -/
def WORD_SPACE : Nat := 7 * DOT

/-- The three file-scope LED objects `led_ep1`, `led_ep2`, `led_err`. -/
structure LedBank where
  led_ep1 : Led
  led_ep2 : Led
  led_err : Led
  deriving DecidableEq, Repr

/-- The initial values of the three LED objects. -/
def LedBank.init : LedBank :=
  ⟨⟨LED_GPIO_EP1, 0⟩, ⟨LED_GPIO_EP2, 0⟩, ⟨LED_GPIO_ERR, 0⟩⟩

/-- What the LED module does to the outside world: a level written to a pin, or a
blocking delay. -/
inductive LedEvent where
  | setLevel (gpio lvl : Nat)
  | delayMs (ms : Nat)
  deriving DecidableEq, Repr

/-- The type `morse_t`: a letter and its pattern of `.` and `-`. -/
structure morse_t where
  letter : Char
  pattern : String
  deriving DecidableEq, Repr

/-- The table `morse_table`. -/
def morse_table : List morse_t :=
  [⟨'A', ".-"⟩, ⟨'B', "-..."⟩, ⟨'C', "-.-."⟩, ⟨'D', "-.."⟩, ⟨'E', "."⟩,
   ⟨'F', "..-."⟩, ⟨'G', "--."⟩, ⟨'H', "...."⟩, ⟨'I', ".."⟩, ⟨'J', ".---"⟩,
   ⟨'K', "-.-"⟩, ⟨'L', ".-.."⟩, ⟨'M', "--"⟩, ⟨'N', "-."⟩, ⟨'O', "---"⟩,
   ⟨'P', ".--."⟩, ⟨'Q', "--.-"⟩, ⟨'R', ".-."⟩, ⟨'S', "..."⟩, ⟨'T', "-"⟩,
   ⟨'U', "..-"⟩, ⟨'V', "...-"⟩, ⟨'W', ".--"⟩, ⟨'X', "-..-"⟩, ⟨'Y', "-.--"⟩,
   ⟨'Z', "--.."⟩,
   ⟨'1', ".----"⟩, ⟨'2', "..---"⟩, ⟨'3', "...--"⟩, ⟨'4', "....-"⟩, ⟨'5', "....."⟩,
   ⟨'6', "-...."⟩, ⟨'7', "--..."⟩, ⟨'8', "---.."⟩, ⟨'9', "----."⟩, ⟨'0', "-----"⟩]

/-- The function `led_on`. -/
def led_on (led : Led) : Led × List LedEvent :=
  ({ led with state := 1 }, [LedEvent.setLevel led.gpio 1])

/-- The function `led_off`. -/
def led_off (led : Led) : Led × List LedEvent :=
  ({ led with state := 0 }, [LedEvent.setLevel led.gpio 0])

/-- The function `led_toggle`: `state = !state`, then the new state is written. -/
def led_toggle (led : Led) : Led × List LedEvent :=
  let s := if led.state = 0 then 1 else 0
  ({ led with state := s }, [LedEvent.setLevel led.gpio s])

/-- The library function `toupper` in the C locale: the letters `a` to `z` are mapped to
`A` to `Z`, every other character to itself. -/
def toupper (c : Char) : Char :=
  if 97 ≤ c.toNat ∧ c.toNat ≤ 122 then Char.ofNat (c.toNat - 32) else c

/-- The loop `for (k ...)` of `morse_flash` over the symbols of a pattern. -/
def playPattern (led : Led) : List Char → Led × List LedEvent
  | [] => (led, [])
  | s :: rest =>
    let r1 := led_on led
    let r2 := led_off r1.1
    let r := playPattern r2.1 rest
    (r.1, r1.2 ++ [LedEvent.delayMs (if s = '.' then DOT else DASH)] ++ r2.2 ++
      [LedEvent.delayMs SYMBOL_SPACE] ++ r.2)

/-- The loop `for (j ...)` of `morse_flash` over the table entries still to try: the first
entry whose letter is `c` is played, followed by the letter pause, and ends the search. -/
def findAndPlay (led : Led) (c : Char) : List morse_t → Led × List LedEvent
  | [] => (led, [])
  | e :: rest =>
    if e.letter = c then
      let r := playPattern led e.pattern.toList
      (r.1, r.2 ++ [LedEvent.delayMs LETTER_SPACE])
    else findAndPlay led c rest

/-- The function `morse_flash(Led *led, const char *text)`, over the characters found
from `text` on: the loop stops at the first NUL (the end of the list stands for the
terminator). -/
def morse_flash (led : Led) : List Char → Led × List LedEvent
  | [] => (led, [])
  | ch :: rest =>
    if ch = Char.ofNat 0 then (led, [])
    else
      let c := toupper ch
      if c = ' ' then
        let r := morse_flash led rest
        (r.1, LedEvent.delayMs WORD_SPACE :: r.2)
      else
        let r1 := findAndPlay led c morse_table
        let r := morse_flash r1.1 rest
        (r.1, r1.2 ++ r.2)

/-- The function `leds_morse_sequence(const char *message)`: the message is played on
the object `led_ep2`. -/
def leds_morse_sequence (message : List Char) (bank : LedBank) : LedBank × List LedEvent :=
  let r := morse_flash bank.led_ep2 message
  ({ bank with led_ep2 := r.1 }, r.2)

/-! ### Reading a trace of LED events -/

/-- The lit durations of a trace, in order: for each span from a write of a non-zero
level to the next write of level 0, the sum of the delays inside it. -/
def pulsesFrom : Option Nat → List LedEvent → List Nat
  | _, [] => []
  | none, LedEvent.setLevel _ lvl :: es =>
    if lvl = 0 then pulsesFrom none es else pulsesFrom (some 0) es
  | some t, LedEvent.setLevel _ lvl :: es =>
    if lvl = 0 then t :: pulsesFrom none es else pulsesFrom (some t) es
  | none, LedEvent.delayMs _ :: es => pulsesFrom none es
  | some t, LedEvent.delayMs d :: es => pulsesFrom (some (t + d)) es

/-- The lit durations of a trace that starts with the LED off. -/
def pulses (es : List LedEvent) : List Nat := pulsesFrom none es

/-- The dark durations between consecutive pulses of a trace: for each span from a write of
level 0 to the next write of a non-zero level, the sum of the delays inside it. -/
def gapsFrom : Option Nat → List LedEvent → List Nat
  | _, [] => []
  | none, LedEvent.setLevel _ lvl :: es =>
    if lvl = 0 then gapsFrom (some 0) es else gapsFrom none es
  | some t, LedEvent.setLevel _ lvl :: es =>
    if lvl = 0 then gapsFrom (some t) es else t :: gapsFrom none es
  | none, LedEvent.delayMs _ :: es => gapsFrom none es
  | some t, LedEvent.delayMs d :: es => gapsFrom (some (t + d)) es

/-- The dark durations between the pulses of a trace. -/
def gaps (es : List LedEvent) : List Nat := gapsFrom none es

/-- The sum of all delays of a trace, in milliseconds. -/
def totalDelay : List LedEvent → Nat
  | [] => 0
  | LedEvent.delayMs d :: es => d + totalDelay es
  | _ :: es => totalDelay es

/-- The events of one dot on pin `g`: on, one unit, off, symbol pause. -/
def dotEvents (g : Nat) : List LedEvent :=
  [LedEvent.setLevel g 1, LedEvent.delayMs DOT, LedEvent.setLevel g 0,
   LedEvent.delayMs SYMBOL_SPACE]

/-- The events of one dash on pin `g`: on, three units, off, symbol pause. -/
def dashEvents (g : Nat) : List LedEvent :=
  [LedEvent.setLevel g 1, LedEvent.delayMs DASH, LedEvent.setLevel g 0,
   LedEvent.delayMs SYMBOL_SPACE]

/-- The pattern the table gives for a character of the message (after `toupper`), if any. -/
def patternOf (c : Char) : Option (List Char) :=
  (morse_table.find? (fun e => e.letter = toupper c)).map (fun e => e.pattern.toList)

/-- A character of the message that has a table entry. -/
def supported (c : Char) : Bool := (patternOf c).isSome

/-- The symbols played for a message: the patterns of its supported characters, in order. -/
def symbolsOf (m : List Char) : List Char :=
  m.flatMap (fun c => (patternOf c).getD [])

/-- An upper-case letter `A` to `Z` or a digit `0` to `9`. -/
def isUpperOrDigit (c : Char) : Bool :=
  (65 ≤ c.toNat && c.toNat ≤ 90) || (48 ≤ c.toNat && c.toNat ≤ 57)

/-- A character of a message that is a space or, after upper-casing, a letter or a digit. -/
def played (c : Char) : Bool := c = ' ' || isUpperOrDigit (toupper c)

/-- The library function `tolower` in the C locale. -/
def tolower (c : Char) : Char :=
  if 65 ≤ c.toNat ∧ c.toNat ≤ 90 then Char.ofNat (c.toNat + 32) else c

/-- The reference table: international Morse code (ITU-R M.1677), letters then digits
0 to 9, a dot written `false` and a dash `true`. -/
def internationalMorse : List (Char × List Bool) :=
  [('A', [false, true]), ('B', [true, false, false, false]), ('C', [true, false, true, false]),
   ('D', [true, false, false]), ('E', [false]), ('F', [false, false, true, false]),
   ('G', [true, true, false]), ('H', [false, false, false, false]), ('I', [false, false]),
   ('J', [false, true, true, true]), ('K', [true, false, true]), ('L', [false, true, false, false]),
   ('M', [true, true]), ('N', [true, false]), ('O', [true, true, true]),
   ('P', [false, true, true, false]), ('Q', [true, true, false, true]), ('R', [false, true, false]),
   ('S', [false, false, false]), ('T', [true]), ('U', [false, false, true]),
   ('V', [false, false, false, true]), ('W', [false, true, true]), ('X', [true, false, false, true]),
   ('Y', [true, false, true, true]), ('Z', [true, true, false, false]),
   ('0', [true, true, true, true, true]), ('1', [false, true, true, true, true]),
   ('2', [false, false, true, true, true]), ('3', [false, false, false, true, true]),
   ('4', [false, false, false, false, true]), ('5', [false, false, false, false, false]),
   ('6', [true, false, false, false, false]), ('7', [true, true, false, false, false]),
   ('8', [true, true, true, false, false]), ('9', [true, true, true, true, false])]

end Leds

namespace Game

/-! ## components/game/game_logic.c -/

/-- What one run of the game does to the outside world, in order, together with the
stores into the entry buffer. -/
inductive GEvent where
  | lcd (e : Lcd.LcdEvent)
  | led (e : Leds.LedEvent)
  | delayMs (ms : Nat)
  | store (offset : Int) (c : Char)
  deriving DecidableEq, Repr

/-- The local variables of `launch_game`, the LED objects it reaches through `get_led_ep1`
and `get_led_err`, and the events so far. -/
structure State where
  password : List Char
  index : Int
  sentinelle : Int
  leds : Leds.LedBank
  log : List GEvent

/-- The value of the C literal for the NUL character. -/
def NUL : Char := Char.ofNat 0

/-- The string held in a `char` array: the characters before the first NUL. -/
def cstr (buf : List Char) : List Char := buf.takeWhile (fun c => c ≠ NUL)

/-- The expected code, the literal of the `strcmp` call. -/
def CODE : List Char := "B947D".toList

/-- Events of the display driver, appended to the log. -/
def lcdEvents (es : List Lcd.LcdEvent) (st : State) : State :=
  { st with log := st.log ++ es.map GEvent.lcd }

/-- Events of the LED module, appended to the log. -/
def ledEvents (es : List Leds.LedEvent) (st : State) : State :=
  { st with log := st.log ++ es.map GEvent.led }

/-- The call `vTaskDelay(pdMS_TO_TICKS(ms))`. -/
def vTaskDelay (ms : Nat) (st : State) : State :=
  { st with log := st.log ++ [GEvent.delayMs ms] }

/-- The call `lcd_set_cursor(row, col)`. -/
def lcd_set_cursor (row col : Int) (st : State) : Option State :=
  (Lcd.lcd_set_cursor row col).map (fun es => lcdEvents es st)

/-- The call `lcd_print(str)` for the characters found from `str` on. -/
def lcd_print (str : List Char) (st : State) : State :=
  lcdEvents (Lcd.lcd_print (str.map Char.toNat)) st

/-- The call `lcd_clear()`. -/
def lcd_clear (st : State) : State :=
  lcdEvents Lcd.lcd_clear st

/-- The call `led_on(ep1)`. -/
def led_on_ep1 (st : State) : State :=
  ledEvents (Leds.led_on st.leds.led_ep1).2
    { st with leds := { st.leds with led_ep1 := (Leds.led_on st.leds.led_ep1).1 } }

/-- The call `led_on(err)`. -/
def led_on_err (st : State) : State :=
  ledEvents (Leds.led_on st.leds.led_err).2
    { st with leds := { st.leds with led_err := (Leds.led_on st.leds.led_err).1 } }

/-- The call `led_off(err)`. -/
def led_off_err (st : State) : State :=
  ledEvents (Leds.led_off st.leds.led_err).2
    { st with leds := { st.leds with led_err := (Leds.led_off st.leds.led_err).1 } }

/-- The call `leds_morse_sequence(message)`. -/
def leds_morse_sequence (message : List Char) (st : State) : State :=
  ledEvents (Leds.leds_morse_sequence message st.leds).2
    { st with leds := (Leds.leds_morse_sequence message st.leds).1 }

/-- A store `password[i] = c` into the array `char password[6]`: defined for offsets 0 to 5
only. -/
def store (i : Int) (c : Char) (st : State) : Option State :=
  if 0 ≤ i ∧ i < 6 then
    some { st with password := st.password.set i.toNat c, log := st.log ++ [GEvent.store i c] }
  else none

/-- The two statements `password[index++] = key; password[index] = 0;`. -/
def storeKey (key : Char) (st : State) : Option State := do
  let st ← store st.index key st
  let st := { st with index := st.index + 1 }
  store st.index NUL st

/-- The branch taken when `strcmp(password, "B947D") == 0`. -/
def success (st : State) : Option State := do
  let st := led_on_ep1 st
  let st := vTaskDelay 500 st
  let st ← lcd_set_cursor 0 0 st
  let st := lcd_print "Reussite!".toList st
  let st ← lcd_set_cursor 1 0 st
  let st := lcd_print "Wait for part 2!".toList st
  let st := vTaskDelay 500 st
  some { st with sentinelle := 1 }

/-- The branch taken when the five characters are not the code. -/
def failure (st : State) : Option State := do
  let st := led_on_err st
  let st := vTaskDelay 500 st
  let st ← lcd_set_cursor 0 0 st
  let st := lcd_print "Nope!".toList st
  let st := vTaskDelay 1000 st
  let st := led_off_err st
  some (lcd_clear st)

/-- The block `if (index >= 5) ...` that ends an attempt. -/
def checkCode (st : State) : Option State :=
  if st.index ≥ 5 then do
    let st ← if cstr st.password = CODE then success st else failure st
    let st := vTaskDelay 1000 st
    some { st with index := 0 }
  else some st

/-- The block `if (key != 0) ...` that takes a key. -/
def onKey (key : Char) (st : State) : Option State := do
  let st ← storeKey key st
  let st := lcd_clear st
  let st ← lcd_set_cursor 1 0 st
  let st := lcd_print st.password st
  checkCode st

/-- One pass through the body of the `while` loop, for the level `button` returned by
`button_poll()` and the character `key` returned by `keypad_scan()`. -/
def iteration (button : Int) (key : Char) (st : State) : Option State := do
  let button_pressed := decide (button = 1)
  let st ← lcd_set_cursor 0 0 st
  let st := lcd_print "Entrez le code:".toList st
  let st := if button_pressed then leds_morse_sequence "b947d".toList st else st
  let st ← if key ≠ NUL then onKey key st else some st
  some (vTaskDelay 100 st)

/-- The loop `while (sentinelle == 0)`, for the button levels and scan results of the passes
to come. -/
def loop : List (Int × Char) → State → Option State
  | [], st => some st
  | (button, key) :: rest, st =>
    if st.sentinelle = 0 then (iteration button key st).bind (loop rest) else some st

/-- The state when the loop is entered: `password[6] = {0}`, `index = 0`,
`sentinelle = 0`, the display initialised. -/
def start : State :=
  lcdEvents Lcd.lcd_init ⟨List.replicate 6 NUL, 0, 0, Leds.LedBank.init, []⟩

/-- The function `launch_game()`, run on the given button levels and scan results. -/
def launch_game (inputs : List (Int × Char)) : Option State :=
  loop inputs start

/-- The keys among the scan results: the results other than NUL, in order. -/
def keysOf (inputs : List (Int × Char)) : List Char :=
  (inputs.map Prod.snd).filter (fun c => c ≠ NUL)

/-- The stores into the entry buffer recorded in a log, in order. -/
def storesOf : List GEvent → List (Int × Char)
  | [] => []
  | GEvent.store i c :: es => (i, c) :: storesOf es
  | _ :: es => storesOf es

/-- The part of the state that the display, the delays and the Morse hint leave alone: entry
buffer, index, loop flag, success LED and recorded stores; the log only grows. -/
def Same (st st2 : State) : Prop :=
  st2.password = st.password ∧ st2.index = st.index ∧ st2.sentinelle = st.sentinelle ∧
  st2.leds.led_ep1 = st.leds.led_ep1 ∧ storesOf st2.log = storesOf st.log ∧
  ∀ e ∈ st.log, e ∈ st2.log

/-- The `n`-th aligned block of five keys. -/
def block (ks : List Char) (n : Nat) : List Char := (ks.drop (5 * n)).take 5

/-- The entry expected after the keys `ks`, starting from the pending entry `p`: keys
accumulate; a fifth key either completes the code (`none`: the game is over) or empties
the entry. -/
def entryAfter : List Char → List Char → Option (List Char)
  | p, [] => some p
  | p, k :: ks =>
    if (p ++ [k]).length < 5 then entryAfter (p ++ [k]) ks
    else if p ++ [k] = CODE then none
    else entryAfter [] ks

/-- The state at the start of a pass of the loop with the pending entry `p`: the loop flag
is 0, `index` is the length of `p`, at most 4, the 6-byte buffer starts with `p`, and `p`
holds keys. -/
def Pending (st : State) (p : List Char) : Prop :=
  st.sentinelle = 0 ∧ st.index = p.length ∧ p.length < 5 ∧
  (∃ rest, st.password = p ++ rest ∧ p.length + rest.length = 6) ∧
  (∀ c ∈ p, c ≠ NUL) ∧ st.leds.led_ep1.gpio = Leds.LED_GPIO_EP1

end Game

namespace Lcd

/-- The value held by a 32-bit `int` when an addition with the exact result `x` wraps
(two's complement). -/
def wrapInt (x : Int) : Int := (x + 2147483648) % 4294967296 - 2147483648

end Lcd

namespace Leds

/-- The levels written to the pins in a trace, in order. -/
def levels : List LedEvent → List Nat
  | [] => []
  | LedEvent.setLevel _ lvl :: es => lvl :: levels es
  | _ :: es => levels es

/-- The message found at `text`: the characters before the first NUL. -/
def message (text : List Char) : List Char :=
  text.takeWhile (fun c => c ≠ Char.ofNat 0)

/-- The level of every output pin after a trace, from the levels `lv` before it: a call
`gpio_set_level(pin, l)` sets the level of `pin` and of no other pin, a delay changes
nothing. -/
def pinLevels (lv : Nat → Nat) : List LedEvent → Nat → Nat
  | [] => lv
  | LedEvent.setLevel g l :: es => pinLevels (fun p => if p = g then l else lv p) es
  | LedEvent.delayMs _ :: es => pinLevels lv es

end Leds

namespace Game

/-- The events of the LED module recorded in a log, in order. -/
def ledsOf : List GEvent → List Leds.LedEvent
  | [] => []
  | GEvent.led e :: es => e :: ledsOf es
  | _ :: es => ledsOf es

/-- The part of the state that concerns the LEDs: the LED objects, the LED events so far
and the loop flag. -/
def ledView (st : State) : Leds.LedBank × List Leds.LedEvent × Int :=
  (st.leds, ledsOf st.log, st.sentinelle)

/-- Both indicators dark: the success LED and the error LED are recorded as off, the three
objects hold their own pins, and after the LED events so far, from the pin levels `lv`
at the start, the two indicator pins are at level 0. -/
def Dark (lv : Nat → Nat) (st : State) : Prop :=
  st.leds.led_ep1 = ⟨Leds.LED_GPIO_EP1, 0⟩ ∧ st.leds.led_err = ⟨Leds.LED_GPIO_ERR, 0⟩ ∧
  st.leds.led_ep2.gpio = Leds.LED_GPIO_EP2 ∧
  Leds.pinLevels lv (ledsOf st.log) Leds.LED_GPIO_EP1 = 0 ∧
  Leds.pinLevels lv (ledsOf st.log) Leds.LED_GPIO_ERR = 0

end Game

namespace Keypad

/-! ### The inner loop -/

theorem get_level_level (env : Inputs) (pin : Nat) (g : Gpio) :
    (gpio_get_level env pin g).2.level = g.level := rfl

theorem scanCols_level (env : Inputs) (row : Nat) (cols : List Nat) (g : Gpio) :
    ((scanCols env row cols g).val = none → (scanCols env row cols g).gpio.level = g.level) ∧
    (∀ k, (scanCols env row cols g).val = some k →
      (scanCols env row cols g).gpio.level = (gpio_set_level (rowPin row) 1 g).level) := by
  induction cols generalizing g with
  | nil => simp [scanCols]
  | cons col cols ih =>
    simp only [scanCols]
    split_ifs with h1 h2
    · simp [gpio_set_level, gpio_get_level]
    · have := ih (gpio_get_level env (colPin col) (gpio_get_level env (colPin col) g).2).2
      simpa [gpio_set_level, gpio_get_level] using this
    · have := ih (gpio_get_level env (colPin col) g).2
      simpa [gpio_set_level, gpio_get_level] using this

/-- Every event of the inner loop is a sample at the loop's row, at one of the listed
columns and with the row levels the loop started with, or the debounce delay, or the
row restore of the early return. -/
theorem scanCols_events (env : Inputs) (row : Nat) (cols : List Nat) (g : Gpio) :
    ∀ e ∈ (scanCols env row cols g).events,
      (∃ c ∈ cols, ∃ b lvl, e = KEvent.sample row c b (rowLevels g) lvl) ∨
      e = KEvent.delayMs 100 ∨ e = KEvent.setLevel (rowPin row) 1 := by
  induction cols generalizing g with
  | nil => simp [scanCols]
  | cons col cols ih =>
    intro e he
    simp only [scanCols] at he
    split_ifs at he with h1 h2
    · simp only [List.mem_cons, List.mem_singleton, List.not_mem_nil, or_false] at he
      rcases he with rfl | rfl | rfl | rfl
      · exact Or.inl ⟨col, by simp, false, _, rfl⟩
      · exact Or.inr (Or.inl rfl)
      · exact Or.inl ⟨col, by simp, true, _, rfl⟩
      · exact Or.inr (Or.inr rfl)
    · simp only [List.mem_cons] at he
      rcases he with rfl | rfl | rfl | he
      · exact Or.inl ⟨col, by simp, false, _, rfl⟩
      · exact Or.inr (Or.inl rfl)
      · exact Or.inl ⟨col, by simp, true, _, rfl⟩
      · rcases ih _ e he with ⟨c, hc, b, lvl, rfl⟩ | h | h
        · exact Or.inl ⟨c, by simp [hc], b, lvl, rfl⟩
        · exact Or.inr (Or.inl h)
        · exact Or.inr (Or.inr h)
    · simp only [List.mem_cons] at he
      rcases he with rfl | he
      · exact Or.inl ⟨col, by simp, false, _, rfl⟩
      · rcases ih _ e he with ⟨c, hc, b, lvl, rfl⟩ | h | h
        · exact Or.inl ⟨c, by simp [hc], b, lvl, rfl⟩
        · exact Or.inr (Or.inl h)
        · exact Or.inr (Or.inr h)

/-- When the inner loop returns a key, it is the key of one of the listed columns, the
events end with the two samples of that column that both read 0, separated by the
debounce delay, and no re-check that read an inactive level was taken at that column. -/
theorem scanCols_some (env : Inputs) (row : Nat) (cols : List Nat) (g : Gpio) (k : Char)
    (hk : (scanCols env row cols g).val = some k) :
    ∃ c ∈ cols, k = keyAt row c ∧
      (∃ pre, (scanCols env row cols g).events =
        pre ++ [KEvent.sample row c false (rowLevels g) 0, KEvent.delayMs 100,
                KEvent.sample row c true (rowLevels g) 0, KEvent.setLevel (rowPin row) 1]) ∧
      (cols.Nodup → ∀ snap v, KEvent.sample row c true snap v ∈ (scanCols env row cols g).events →
        v = 0) := by
  induction cols generalizing g with
  | nil => simp [scanCols] at hk
  | cons col cols ih =>
    simp only [scanCols] at hk ⊢
    split_ifs at hk ⊢ with h1 h2
    · simp only [Option.some.injEq] at hk
      refine ⟨col, by simp, hk.symm, ⟨[], ?_⟩, ?_⟩
      · simp only [h1, h2, List.nil_append]
        rfl
      · intro _ snap v hv
        simp only [List.mem_cons, List.mem_singleton, List.not_mem_nil, or_false] at hv
        rcases hv with hv | hv | hv | hv
        · cases hv
        · cases hv
        · injection hv with _ _ _ _ hv
          rw [hv]; exact h2
        · cases hv
    · obtain ⟨c, hc, hkc, ⟨pre, hpre⟩, hrej⟩ := ih _ hk
      refine ⟨c, by simp [hc], hkc, ?_, ?_⟩
      · rw [hpre]
        exact ⟨KEvent.sample row col false (rowLevels g) _ :: KEvent.delayMs 100 ::
          KEvent.sample row col true (rowLevels g) _ :: pre, rfl⟩
      · intro hnd snap v hv
        have hnd2 := List.nodup_cons.mp hnd
        simp only [List.mem_cons] at hv
        rcases hv with hv | hv | hv | hv
        · cases hv
        · cases hv
        · injection hv with _ hcc
          exact absurd (hcc ▸ hc) hnd2.1
        · exact hrej hnd2.2 snap v hv
    · obtain ⟨c, hc, hkc, ⟨pre, hpre⟩, hrej⟩ := ih _ hk
      refine ⟨c, by simp [hc], hkc, ?_, ?_⟩
      · rw [hpre]
        exact ⟨KEvent.sample row col false (rowLevels g) _ :: pre, rfl⟩
      · intro hnd snap v hv
        have hnd2 := List.nodup_cons.mp hnd
        simp only [List.mem_cons] at hv
        rcases hv with hv | hv
        · cases hv
        · exact hrej hnd2.2 snap v hv

/-- When the inner loop runs out, every re-check it took read an inactive level. -/
theorem scanCols_none (env : Inputs) (row : Nat) (cols : List Nat) (g : Gpio)
    (hk : (scanCols env row cols g).val = none) :
    ∀ r c snap, KEvent.sample r c true snap 0 ∉ (scanCols env row cols g).events := by
  induction cols generalizing g with
  | nil => simp [scanCols]
  | cons col cols ih =>
    intro r c snap
    simp only [scanCols] at hk ⊢
    split_ifs at hk ⊢ with h1 h2
    · have := ih _ hk r c snap
      simp only [List.mem_cons, not_or]
      refine ⟨by simp, by simp, ?_, this⟩
      intro h
      injection h with _ _ _ _ h
      exact h2 h.symm
    · have := ih _ hk r c snap
      simp only [List.mem_cons, not_or]
      exact ⟨by simp, this⟩

theorem scanRows_cons_some (env : Inputs) (row : Nat) (rows : List Nat) (g : Gpio) (k : Char)
    (h : (scanCols env row [0, 1, 2, 3] (gpio_set_level (rowPin row) 0 g)).val = some k) :
    scanRows env (row :: rows) g =
      ⟨k, (scanCols env row [0, 1, 2, 3] (gpio_set_level (rowPin row) 0 g)).gpio,
        KEvent.setLevel (rowPin row) 0 ::
          (scanCols env row [0, 1, 2, 3] (gpio_set_level (rowPin row) 0 g)).events⟩ := by
  simp only [scanRows, h]

theorem scanRows_cons_none (env : Inputs) (row : Nat) (rows : List Nat) (g : Gpio)
    (h : (scanCols env row [0, 1, 2, 3] (gpio_set_level (rowPin row) 0 g)).val = none) :
    scanRows env (row :: rows) g =
      ⟨(scanRows env rows (gpio_set_level (rowPin row) 1
          (scanCols env row [0, 1, 2, 3] (gpio_set_level (rowPin row) 0 g)).gpio)).val,
       (scanRows env rows (gpio_set_level (rowPin row) 1
          (scanCols env row [0, 1, 2, 3] (gpio_set_level (rowPin row) 0 g)).gpio)).gpio,
       KEvent.setLevel (rowPin row) 0 ::
        ((scanCols env row [0, 1, 2, 3] (gpio_set_level (rowPin row) 0 g)).events ++
          KEvent.setLevel (rowPin row) 1 ::
            (scanRows env rows (gpio_set_level (rowPin row) 1
              (scanCols env row [0, 1, 2, 3] (gpio_set_level (rowPin row) 0 g)).gpio)).events)⟩ := by
  simp only [scanRows, h]

theorem keyAt_ne_NUL (r c : Nat) (hr : r < 4) (hc : c ∈ [0, 1, 2, 3]) : keyAt r c ≠ NUL := by
  simp only [List.mem_cons, List.mem_singleton, List.not_mem_nil, or_false] at hc
  interval_cases r <;> rcases hc with rfl | rfl | rfl | rfl <;> decide

theorem keyAt_injective (r c r2 c2 : Nat) (hr : r < 4) (hc : c < 4) (hr2 : r2 < 4) (hc2 : c2 < 4)
    (h : keyAt r c = keyAt r2 c2) : r = r2 ∧ c = c2 := by
  interval_cases r <;> interval_cases c <;> interval_cases r2 <;> interval_cases c2 <;>
    first | exact ⟨rfl, rfl⟩ | exact absurd h (by decide)

/-- A pin that is high before the scan is high after it. -/
theorem scanRows_high (env : Inputs) (rows : List Nat) (g : Gpio) (p : Nat)
    (hp : g.level p = 1) : (scanRows env rows g).gpio.level p = 1 := by
  induction rows generalizing g with
  | nil => simpa [scanRows] using hp
  | cons row rows ih =>
    cases h : (scanCols env row [0, 1, 2, 3] (gpio_set_level (rowPin row) 0 g)).val with
    | none =>
      rw [scanRows_cons_none env row rows g h]
      apply ih
      show (if p = rowPin row then 1 else
        (scanCols env row [0, 1, 2, 3] (gpio_set_level (rowPin row) 0 g)).gpio.level p) = 1
      rw [(scanCols_level env row _ _).1 h]
      simp only [gpio_set_level]
      split_ifs <;> simp_all
    | some k =>
      rw [scanRows_cons_some env row rows g k h]
      show (scanCols env row [0, 1, 2, 3] (gpio_set_level (rowPin row) 0 g)).gpio.level p = 1
      rw [(scanCols_level env row _ _).2 k h]
      simp only [gpio_set_level]
      split_ifs <;> simp_all

/-- Every sample of the outer loop is taken at one of the listed rows and at a column
of the matrix. -/
theorem scanRows_positions (env : Inputs) (rows : List Nat) (g : Gpio) :
    ∀ r c b snap lvl, KEvent.sample r c b snap lvl ∈ (scanRows env rows g).events →
      r ∈ rows ∧ c ∈ [0, 1, 2, 3] := by
  induction rows generalizing g with
  | nil => simp [scanRows]
  | cons row rows ih =>
    intro r c b snap lvl he
    have inner : ∀ r c b snap lvl, KEvent.sample r c b snap lvl ∈
        (scanCols env row [0, 1, 2, 3] (gpio_set_level (rowPin row) 0 g)).events →
        r = row ∧ c ∈ [0, 1, 2, 3] := by
      intro r c b snap lvl he
      rcases scanCols_events env row _ _ _ he with ⟨c2, hc2, b2, l2, h⟩ | h | h
      · injection h with h1 h2
        exact ⟨h1, h2 ▸ hc2⟩
      · cases h
      · cases h
    cases h : (scanCols env row [0, 1, 2, 3] (gpio_set_level (rowPin row) 0 g)).val with
    | none =>
      rw [scanRows_cons_none env row rows g h] at he
      simp only [List.mem_cons, List.mem_append] at he
      rcases he with he | he | he | he
      · cases he
      · obtain ⟨h1, h2⟩ := inner _ _ _ _ _ he
        exact ⟨by simp [h1], h2⟩
      · cases he
      · obtain ⟨h1, h2⟩ := ih _ _ _ _ _ _ he
        exact ⟨by simp [h1], h2⟩
    | some k =>
      rw [scanRows_cons_some env row rows g k h] at he
      simp only [List.mem_cons] at he
      rcases he with he | he
      · cases he
      · obtain ⟨h1, h2⟩ := inner _ _ _ _ _ he
        exact ⟨by simp [h1], h2⟩

theorem rowLevels_low (g : Gpio) (row : Nat) (hrow : row < 4)
    (hg : ∀ i < 4, g.level (rowPin i) = 1) :
    rowLevels (gpio_set_level (rowPin row) 0 g) = oneLow row := by
  have h0 := hg 0 (by omega)
  have h1 := hg 1 (by omega)
  have h2 := hg 2 (by omega)
  have h3 := hg 3 (by omega)
  simp only [rowPin, rowPins, List.getD_cons_zero, List.getD_cons_succ] at h0 h1 h2 h3
  interval_cases row <;>
    simp [rowLevels, rowPins, gpio_set_level, rowPin, oneLow, List.range_succ, h0, h1, h2, h3]

theorem rowLevels_getD (g : Gpio) (row : Nat) (hrow : row < 4) :
    (rowLevels (gpio_set_level (rowPin row) 0 g)).getD row 1 = 0 := by
  interval_cases row <;> simp [rowLevels, rowPins, gpio_set_level, rowPin]

/-- Starting with the four row outputs high, every sample of the outer loop is taken with
exactly the scanned row low. -/
theorem scanRows_snapshot (env : Inputs) (rows : List Nat) (g : Gpio)
    (hrows : ∀ r ∈ rows, r < 4) (hg : ∀ i < 4, g.level (rowPin i) = 1) :
    ∀ r c b snap lvl, KEvent.sample r c b snap lvl ∈ (scanRows env rows g).events →
      snap = oneLow r := by
  induction rows generalizing g with
  | nil => simp [scanRows]
  | cons row rows ih =>
    intro r c b snap lvl he
    have hrow : row < 4 := hrows row (by simp)
    have inner : ∀ r c b snap lvl, KEvent.sample r c b snap lvl ∈
        (scanCols env row [0, 1, 2, 3] (gpio_set_level (rowPin row) 0 g)).events →
        snap = oneLow r := by
      intro r c b snap lvl he
      rcases scanCols_events env row _ _ _ he with ⟨c2, _, b2, l2, h⟩ | h | h
      · injection h with h1 _ _ h4
        rw [h4, h1]
        exact rowLevels_low g row hrow hg
      · cases h
      · cases h
    cases h : (scanCols env row [0, 1, 2, 3] (gpio_set_level (rowPin row) 0 g)).val with
    | none =>
      rw [scanRows_cons_none env row rows g h] at he
      simp only [List.mem_cons, List.mem_append] at he
      rcases he with he | he | he | he
      · cases he
      · exact inner _ _ _ _ _ he
      · cases he
      · refine ih _ (fun r hr => hrows r (by simp [hr])) ?_ _ _ _ _ _ he
        intro i hi
        show (if rowPin i = rowPin row then 1 else
          (scanCols env row [0, 1, 2, 3] (gpio_set_level (rowPin row) 0 g)).gpio.level (rowPin i)) = 1
        rw [(scanCols_level env row _ _).1 h]
        simp only [gpio_set_level]
        split_ifs
        · rfl
        · exact hg i hi
    | some k =>
      rw [scanRows_cons_some env row rows g k h] at he
      simp only [List.mem_cons] at he
      rcases he with he | he
      · cases he
      · exact inner _ _ _ _ _ he

/-- The outcome of the outer loop: either no key and every re-check rejected, or the key
of a listed position whose two samples, taken with that row low and separated by the
debounce delay, both read 0 and end the events. -/
theorem scanRows_result (env : Inputs) (rows : List Nat) (g : Gpio)
    (hrows : ∀ r ∈ rows, r < 4) :
    ((scanRows env rows g).val = NUL ∧
      ∀ r c snap, KEvent.sample r c true snap 0 ∉ (scanRows env rows g).events) ∨
    (∃ r ∈ rows, ∃ c ∈ [0, 1, 2, 3], (scanRows env rows g).val = keyAt r c ∧
      (∃ pre snap, snap.getD r 1 = 0 ∧ (scanRows env rows g).events =
        pre ++ [KEvent.sample r c false snap 0, KEvent.delayMs 100,
                KEvent.sample r c true snap 0, KEvent.setLevel (rowPin r) 1]) ∧
      (rows.Nodup → ∀ snap v, KEvent.sample r c true snap v ∈ (scanRows env rows g).events →
        v = 0)) := by
  induction rows generalizing g with
  | nil => left; simp [scanRows]
  | cons row rows ih =>
    have hrow : row < 4 := hrows row (by simp)
    have hrows2 : ∀ r ∈ rows, r < 4 := fun r hr => hrows r (by simp [hr])
    cases h : (scanCols env row [0, 1, 2, 3] (gpio_set_level (rowPin row) 0 g)).val with
    | none =>
      rw [scanRows_cons_none env row rows g h]
      have hin := scanCols_none env row _ _ h
      rcases ih (gpio_set_level (rowPin row) 1
          (scanCols env row [0, 1, 2, 3] (gpio_set_level (rowPin row) 0 g)).gpio) hrows2 with
        ⟨hv, hno⟩ | ⟨r, hr, c, hc, hv, ⟨pre, snap, hsnap, hpre⟩, hrej⟩
      · left
        refine ⟨hv, ?_⟩
        intro r c snap hmem
        simp only [List.mem_cons, List.mem_append] at hmem
        rcases hmem with hmem | hmem | hmem | hmem
        · cases hmem
        · exact hin r c snap hmem
        · cases hmem
        · exact hno r c snap hmem
      · right
        refine ⟨r, by simp [hr], c, hc, hv, ⟨KEvent.setLevel (rowPin row) 0 ::
            ((scanCols env row [0, 1, 2, 3] (gpio_set_level (rowPin row) 0 g)).events ++
              KEvent.setLevel (rowPin row) 1 :: pre), snap, hsnap, ?_⟩, ?_⟩
        · show KEvent.setLevel (rowPin row) 0 :: (_ ++ KEvent.setLevel (rowPin row) 1 :: _) = _
          rw [hpre]
          simp
        · intro hnd snap2 v hmem
          have hnd2 := List.nodup_cons.mp hnd
          simp only [List.mem_cons, List.mem_append] at hmem
          rcases hmem with hmem | hmem | hmem | hmem
          · cases hmem
          · rcases scanCols_events env row _ _ _ hmem with ⟨c2, _, b2, l2, h⟩ | h | h
            · injection h with h1
              exact absurd (h1 ▸ hr) hnd2.1
            · cases h
            · cases h
          · cases hmem
          · exact hrej hnd2.2 snap2 v hmem
    | some k =>
      rw [scanRows_cons_some env row rows g k h]
      obtain ⟨c, hc, hkc, ⟨pre, hpre⟩, hrej⟩ := scanCols_some env row _ _ k h
      right
      refine ⟨row, by simp, c, hc, hkc, ⟨KEvent.setLevel (rowPin row) 0 :: pre, _,
        rowLevels_getD g row hrow, ?_⟩, ?_⟩
      · show KEvent.setLevel (rowPin row) 0 :: _ = _
        rw [hpre]
        rfl
      · intro _ snap2 v hmem
        simp only [List.mem_cons] at hmem
        rcases hmem with hmem | hmem
        · cases hmem
        · exact hrej (by decide) snap2 v hmem

theorem steady_read (pressed : Nat → Nat → Bool) (n : Nat) (level : Nat → Nat) (row c : Nat)
    (hrow : row < 4) (hc : c < 4) (hlow : level (rowPin row) = 0)
    (hothers : ∀ i < 4, i ≠ row → level (rowPin i) = 1) :
    steadyInputs pressed n level (colPin c) = if pressed row c = true then 0 else 1 := by
  have h0 := hothers 0 (by omega)
  have h1 := hothers 1 (by omega)
  have h2 := hothers 2 (by omega)
  have h3 := hothers 3 (by omega)
  simp only [rowPin, rowPins, List.getD_cons_zero, List.getD_cons_succ] at h0 h1 h2 h3 hlow
  interval_cases row <;> interval_cases c <;>
    simp_all [steadyInputs, List.range_succ, colPin, colPins, rowPin, rowPins]

theorem scanCols_steady (pressed : Nat → Nat → Bool) (row : Nat) (cols : List Nat) (g : Gpio)
    (hrow : row < 4) (hcols : ∀ c ∈ cols, c < 4) (hlow : g.level (rowPin row) = 0)
    (hothers : ∀ i < 4, i ≠ row → g.level (rowPin i) = 1) :
    (scanCols (steadyInputs pressed) row cols g).val =
      (cols.find? (fun c => pressed row c)).map (keyAt row) := by
  induction cols generalizing g with
  | nil => simp [scanCols]
  | cons col cols ih =>
    have hcol : col < 4 := hcols col (by simp)
    have e1 : (gpio_get_level (steadyInputs pressed) (colPin col) g).1 =
        if pressed row col = true then 0 else 1 :=
      steady_read pressed g.samples g.level row col hrow hcol hlow hothers
    have e2 : (gpio_get_level (steadyInputs pressed) (colPin col)
        (gpio_get_level (steadyInputs pressed) (colPin col) g).2).1 =
        if pressed row col = true then 0 else 1 :=
      steady_read pressed (g.samples + 1) g.level row col hrow hcol hlow hothers
    simp only [scanCols, e1, e2]
    cases hp : pressed row col
    · simp only [Bool.false_eq_true, if_false, one_ne_zero, List.find?_cons, hp]
      exact ih _ (fun c hc => hcols c (by simp [hc])) hlow hothers
    · simp [hp]

theorem scanRows_steady (pressed : Nat → Nat → Bool) (rows : List Nat) (g : Gpio)
    (hrows : ∀ r ∈ rows, r < 4) (hg : ∀ i < 4, g.level (rowPin i) = 1) :
    (scanRows (steadyInputs pressed) rows g).val = rowMajorFirstKey pressed rows := by
  induction rows generalizing g with
  | nil => simp [scanRows, rowMajorFirstKey]
  | cons row rows ih =>
    have hrow : row < 4 := hrows row (by simp)
    have hin := scanCols_steady pressed row [0, 1, 2, 3] (gpio_set_level (rowPin row) 0 g) hrow
      (by decide) (by simp [gpio_set_level]) (by
        intro i hi hne
        have hpin : rowPin i ≠ rowPin row := by
          clear hg
          interval_cases i <;> interval_cases row <;> first | exact absurd rfl hne | decide
        show (if rowPin i = rowPin row then 0 else g.level (rowPin i)) = 1
        rw [if_neg hpin]
        exact hg i hi)
    cases h : (scanCols (steadyInputs pressed) row [0, 1, 2, 3]
        (gpio_set_level (rowPin row) 0 g)).val with
    | none =>
      rw [scanRows_cons_none _ row rows g h]
      rw [h] at hin
      have hf : [0, 1, 2, 3].find? (fun c => pressed row c) = none := by
        cases hq : [0, 1, 2, 3].find? (fun c => pressed row c) with
        | none => rfl
        | some c => rw [hq] at hin; cases hin
      simp only [rowMajorFirstKey, hf]
      apply ih _ (fun r hr => hrows r (by simp [hr]))
      intro i hi
      show (if rowPin i = rowPin row then 1 else
        (scanCols (steadyInputs pressed) row [0, 1, 2, 3]
          (gpio_set_level (rowPin row) 0 g)).gpio.level (rowPin i)) = 1
      rw [(scanCols_level _ row _ _).1 h]
      simp only [gpio_set_level]
      split_ifs
      · rfl
      · exact hg i hi
    | some k =>
      rw [scanRows_cons_some _ row rows g k h]
      rw [h] at hin
      cases hq : [0, 1, 2, 3].find? (fun c => pressed row c) with
      | none => rw [hq] at hin; cases hin
      | some c =>
        rw [hq] at hin
        simp only [Option.map_some', Option.some.injEq] at hin
        simp only [rowMajorFirstKey, hq, hin]

theorem rowMajorFirstKey_NUL (pressed : Nat → Nat → Bool) (rows : List Nat)
    (hrows : ∀ r ∈ rows, r < 4) :
    rowMajorFirstKey pressed rows = NUL ↔ ∀ r ∈ rows, ∀ c ∈ [0, 1, 2, 3], pressed r c = false := by
  induction rows with
  | nil => simp [rowMajorFirstKey]
  | cons row rows ih =>
    have hrow : row < 4 := hrows row (by simp)
    have ih2 := ih (fun r hr => hrows r (by simp [hr]))
    cases hq : [0, 1, 2, 3].find? (fun c => pressed row c) with
    | none =>
      simp only [rowMajorFirstKey, hq, ih2]
      have hn := List.find?_eq_none.mp hq
      constructor
      · intro h r hr c hc
        rcases List.mem_cons.mp hr with rfl | hr
        · simpa using hn c hc
        · exact h r hr c hc
      · intro h r hr c hc
        exact h r (by simp [hr]) c hc
    | some c =>
      simp only [rowMajorFirstKey, hq]
      have hmem := List.mem_of_find?_eq_some hq
      have hpc := List.find?_some hq
      constructor
      · intro h
        exact absurd h (keyAt_ne_NUL row c hrow hmem)
      · intro h
        have := h row (by simp) c hmem
        simp [this] at hpc

/-! ### The claims on `keypad_scan` -/

/-- C1: for inputs held steady during the call, started with the four row outputs high,
`keypad_scan` returns `keys[r][c]` of the row-major first pressed intersection (smallest
row, then smallest column), and it returns the NUL character exactly when no
intersection is pressed. -/
theorem keypad_scan_steady (pressed : Nat → Nat → Bool) (g : Gpio)
    (hg : ∀ i < 4, g.level (rowPin i) = 1) :
    (∀ r < 4, ∀ c < 4, pressed r c = true →
      (∀ r2 < 4, ∀ c2 < 4, (r2 < r ∨ (r2 = r ∧ c2 < c)) → pressed r2 c2 = false) →
      (keypad_scan (steadyInputs pressed) g).val = keyAt r c) ∧
    ((keypad_scan (steadyInputs pressed) g).val = NUL ↔
      ∀ r < 4, ∀ c < 4, pressed r c = false) := by
  have hval : (keypad_scan (steadyInputs pressed) g).val = rowMajorFirstKey pressed [0, 1, 2, 3] :=
    scanRows_steady pressed [0, 1, 2, 3] g (by decide) hg
  rw [hval]
  constructor
  · intro r hr c hc hp hfirst
    interval_cases r <;> interval_cases c <;>
      simp [rowMajorFirstKey, List.find?, hfirst, hp]
  · rw [rowMajorFirstKey_NUL pressed [0, 1, 2, 3] (by decide)]
    constructor
    · intro h r hr c hc
      exact h r (by interval_cases r <;> simp) c (by interval_cases c <;> simp)
    · intro h r hr c hc
      simp only [List.mem_cons, List.mem_singleton, List.not_mem_nil, or_false] at hr hc
      exact h r (by omega) c (by omega)

/-- C1, instance: with `C` (1, 2) and `0` (2, 0) both held down from the idle state, the
scan reports the row-major first one, `keys[1][2]`. -/
theorem keypad_scan_steady_witness :
    (∀ i < 4, idle.level (rowPin i) = 1) ∧
    (keypad_scan (steadyInputs twoKeys) idle).val = keyAt 1 2 :=
  ⟨by decide, (keypad_scan_steady twoKeys idle (by decide)).1 1 (by decide) 2 (by decide)
    (by decide) (by decide)⟩

/-- C2: debounce. (1) If the first sample at (r, c) reads 0 and the re-check after the
100 ms delay reads an inactive level, the call does not return `keys[r][c]`. (2) If all
samples of the call that read 0 are one and the same sample, the call returns NUL.
(3) The call returns `keys[r][c]` only when the events end with two consecutive samples
of column c, taken with row r low and separated by the 100 ms delay, that both read 0. -/
theorem keypad_scan_debounce (env : Inputs) (g : Gpio) :
    (∀ r < 4, ∀ c < 4, ∀ snap v, v ≠ 0 →
      [KEvent.sample r c false snap 0, KEvent.delayMs 100, KEvent.sample r c true snap v] <:+:
        (keypad_scan env g).events →
      (keypad_scan env g).val ≠ keyAt r c) ∧
    (∀ e0, (∀ e ∈ (keypad_scan env g).events, isActiveSample e = true → e = e0) →
      (keypad_scan env g).val = NUL) ∧
    (∀ r < 4, ∀ c < 4, (keypad_scan env g).val = keyAt r c →
      ∃ pre snap, snap.getD r 1 = 0 ∧ (keypad_scan env g).events =
        pre ++ [KEvent.sample r c false snap 0, KEvent.delayMs 100,
                KEvent.sample r c true snap 0, KEvent.setLevel (rowPin r) 1]) := by
  have hres := scanRows_result env [0, 1, 2, 3] g (by decide)
  have hlt : ∀ x ∈ [0, 1, 2, 3], x < 4 := by decide
  refine ⟨?_, ?_, ?_⟩
  · intro r hr c hc snap v hv hinf hval
    have hmem : KEvent.sample r c true snap v ∈ (keypad_scan env g).events :=
      List.IsInfix.mem (by simp) hinf
    rcases hres with ⟨hnul, _⟩ | ⟨r0, hr0, c0, hc0, hv0, _, hrej⟩
    · exact keyAt_ne_NUL r c hr (by interval_cases c <;> simp) (hval ▸ hnul)
    · have hk : keyAt r c = keyAt r0 c0 := hval ▸ hv0
      obtain ⟨e1, e2⟩ := keyAt_injective r c r0 c0 hr hc (hlt r0 hr0) (hlt c0 hc0) hk
      subst e1 e2
      exact hv (hrej (by decide) snap v hmem)
  · intro e0 hall
    rcases hres with ⟨hnul, _⟩ | ⟨r0, _, c0, _, _, ⟨pre, snap, _, hpre⟩, _⟩
    · exact hnul
    · have h1 : KEvent.sample r0 c0 false snap 0 = e0 :=
        hall _ (by rw [keypad_scan, hpre]; simp) rfl
      have h2 : KEvent.sample r0 c0 true snap 0 = e0 :=
        hall _ (by rw [keypad_scan, hpre]; simp) rfl
      rw [← h1] at h2
      cases h2
  · intro r hr c hc hval
    rcases hres with ⟨hnul, _⟩ | ⟨r0, hr0, c0, hc0, hv0, hex, _⟩
    · exact absurd (hval ▸ hnul) (keyAt_ne_NUL r c hr (by interval_cases c <;> simp))
    · have hk : keyAt r c = keyAt r0 c0 := hval ▸ hv0
      obtain ⟨e1, e2⟩ := keyAt_injective r c r0 c0 hr hc (hlt r0 hr0) (hlt c0 hc0) hk
      subst e1 e2
      exact hex

/-- C2, instances: a contact at (0, 0) that reads active once and is released before the
re-check gives no key; two steadily held keys give a key whose two samples read 0. -/
theorem keypad_scan_debounce_witness :
    (keypad_scan bounceOnce idle).val ≠ keyAt 0 0 ∧
    (keypad_scan bounceOnce idle).val = NUL ∧
    (∃ pre snap, snap.getD 1 1 = 0 ∧ (keypad_scan (steadyInputs twoKeys) idle).events =
        pre ++ [KEvent.sample 1 2 false snap 0, KEvent.delayMs 100,
                KEvent.sample 1 2 true snap 0, KEvent.setLevel (rowPin 1) 1]) :=
  ⟨(keypad_scan_debounce bounceOnce idle).1 0 (by decide) 0 (by decide) [0, 1, 1, 1] 1
      (by decide) (by decide),
   (keypad_scan_debounce bounceOnce idle).2.1 (KEvent.sample 0 0 false [0, 1, 1, 1] 0)
      (by decide),
   (keypad_scan_debounce (steadyInputs twoKeys) idle).2.2 1 (by decide) 2 (by decide)
      (by decide)⟩

/-- C4: started with the four row outputs high, (a) every column sample of `keypad_scan`
is taken with exactly one row output low, the row being scanned, and (b) the four row
outputs are high again when the call returns, whether it returns a key or NUL. The
first loop of `keypad_init` establishes the starting condition. -/
theorem keypad_scan_rows (env : Inputs) (g : Gpio) (hg : ∀ i < 4, g.level (rowPin i) = 1) :
    (∀ r c b snap lvl, KEvent.sample r c b snap lvl ∈ (keypad_scan env g).events →
      r < 4 ∧ snap = oneLow r) ∧
    (∀ i < 4, (keypad_scan env g).gpio.level (rowPin i) = 1) ∧
    (∀ g0 : Gpio, ∀ i < 4, (keypad_init g0).level (rowPin i) = 1) := by
  refine ⟨?_, ?_, ?_⟩
  · intro r c b snap lvl he
    have h1 := (scanRows_positions env [0, 1, 2, 3] g r c b snap lvl he).1
    have h2 := scanRows_snapshot env [0, 1, 2, 3] g (by decide) hg r c b snap lvl he
    simp only [List.mem_cons, List.mem_singleton, List.not_mem_nil, or_false] at h1
    exact ⟨by omega, h2⟩
  · intro i hi
    exact scanRows_high env [0, 1, 2, 3] g (rowPin i) (hg i hi)
  · intro g0 i hi
    interval_cases i <;> simp [keypad_init, rowPins, rowPin, gpio_set_level]

/-- C4, instance: a scan with two keys held, started right after `keypad_init`. -/
theorem keypad_scan_rows_witness :
    (∀ r c b snap lvl, KEvent.sample r c b snap lvl ∈
        (keypad_scan (steadyInputs twoKeys) (keypad_init idle)).events →
      r < 4 ∧ snap = oneLow r) ∧
    (∀ i < 4, (keypad_scan (steadyInputs twoKeys) (keypad_init idle)).gpio.level (rowPin i) = 1) :=
  ⟨(keypad_scan_rows (steadyInputs twoKeys) (keypad_init idle) (by decide)).1,
   (keypad_scan_rows (steadyInputs twoKeys) (keypad_init idle) (by decide)).2.1⟩

end Keypad

namespace Lcd

/-! ### Bytes on the wire -/

theorem writes_append (a b : List LcdEvent) : writes (a ++ b) = writes a ++ writes b := by
  induction a with
  | nil => rfl
  | cons e a ih => cases e <;> simp [writes, ih]

theorem latched_append (p : Bool) (xs ys : List Nat) :
    latched p (xs ++ ys) = latched p xs ++ latched (endEn p xs) ys := by
  induction xs generalizing p with
  | nil => rfl
  | cons b xs ih =>
    simp only [List.cons_append, latched, endEn, List.foldl_cons]
    split_ifs <;> simp [ih, endEn]

theorem pairNibbles_two (hi lo : Nat) (rest : List Nat) :
    pairNibbles (hi :: lo :: rest) =
      (hi &&& PIN_RS != 0, (hi &&& 0xF0) ||| ((lo &&& 0xF0) >>> 4)) :: pairNibbles rest := rfl

set_option maxRecDepth 100000 in
theorem send_writes : ∀ v < 256, ∀ m < 2, writes (lcd_send v m) = sendBytes v m := by
  decide!

set_option maxRecDepth 100000 in
theorem sendBytes_facts : ∀ v < 256, ∀ m < 2,
    latched false (sendBytes v m) =
      [(v &&& 0xF0) ||| m ||| PIN_BL, ((v <<< 4) &&& 0xF0) ||| m ||| PIN_BL] ∧
    endEn false (sendBytes v m) = false ∧
    (((v &&& 0xF0) ||| m ||| PIN_BL) &&& 0xF0) |||
      (((((v <<< 4) &&& 0xF0) ||| m ||| PIN_BL) &&& 0xF0) >>> 4) = v ∧
    ((((v &&& 0xF0) ||| m ||| PIN_BL) &&& PIN_RS != 0) = decide (m = 1)) ∧
    (((v &&& 0xF0) ||| m ||| PIN_BL) &&& PIN_EN = 0 ∧
      (((v <<< 4) &&& 0xF0) ||| m ||| PIN_BL) &&& PIN_EN = 0) ∧
    (∀ w ∈ sendBytes v m, w &&& PIN_RW = 0 ∧ w &&& PIN_RS = m ∧ w &&& PIN_BL = PIN_BL) := by
  decide!

/-- One transfer, checked over all 256 byte values for either mode: the four bytes, what
the observer latches from them, and the byte it reassembles. -/
theorem send_bytes (v : Nat) (hv : v < 256) (m : Nat) (hm : m < 2) :
    writes (lcd_send v m) =
      [(v &&& 0xF0) ||| m ||| PIN_BL ||| PIN_EN, (v &&& 0xF0) ||| m ||| PIN_BL,
       ((v <<< 4) &&& 0xF0) ||| m ||| PIN_BL ||| PIN_EN, ((v <<< 4) &&& 0xF0) ||| m ||| PIN_BL] ∧
    latched false (writes (lcd_send v m)) =
      [(v &&& 0xF0) ||| m ||| PIN_BL, ((v <<< 4) &&& 0xF0) ||| m ||| PIN_BL] ∧
    endEn false (writes (lcd_send v m)) = false ∧
    (((v &&& 0xF0) ||| m ||| PIN_BL) &&& 0xF0) |||
      (((((v <<< 4) &&& 0xF0) ||| m ||| PIN_BL) &&& 0xF0) >>> 4) = v ∧
    ((((v &&& 0xF0) ||| m ||| PIN_BL) &&& PIN_RS != 0) = decide (m = 1)) ∧
    (((v &&& 0xF0) ||| m ||| PIN_BL) &&& PIN_EN = 0 ∧
      (((v <<< 4) &&& 0xF0) ||| m ||| PIN_BL) &&& PIN_EN = 0) ∧
    (∀ w ∈ writes (lcd_send v m), w &&& PIN_RW = 0 ∧ w &&& PIN_RS = m ∧ w &&& PIN_BL = PIN_BL) := by
  rw [send_writes v hv m hm]
  exact ⟨rfl, sendBytes_facts v hv m hm⟩

theorem writes_cmd (c : Nat) : writes (lcd_cmd c) = writes (lcd_send (c % 256) 0) := by
  simp [lcd_cmd, writes_append, writes]

theorem writes_data (c : Nat) : writes (lcd_data c) = writes (lcd_send (c % 256) PIN_RS) := by
  simp [lcd_data, writes_append, writes]

theorem decode_send_append (v m : Nat) (hv : v < 256) (hm : m < 2) (rest : List Nat) :
    decode (writes (lcd_send v m) ++ rest) = (decide (m = 1), v) :: decode rest := by
  obtain ⟨_, h2, h3, h4, h5, _⟩ := send_bytes v hv m hm
  rw [decode, latched_append, h2, h3, List.cons_append, List.cons_append, List.nil_append,
    pairNibbles_two, h4, h5]
  rfl

theorem print_cons (b : Nat) (rest : List Nat) (hb : 0 < b) :
    lcd_print (b :: rest) = lcd_data b ++ lcd_print rest := by
  simp [lcd_print, Nat.pos_iff_ne_zero.mp hb]

/-- The bytes of a print, its length and what the observer reassembles, for a text without
NUL byte. -/
theorem print_facts (text : List Nat) (h : ∀ b ∈ text, 0 < b ∧ b < 256) :
    (writes (lcd_print text)).length = 4 * text.length ∧
    (∀ w ∈ writes (lcd_print text), w &&& PIN_RS = PIN_RS ∧ w &&& PIN_BL = PIN_BL) ∧
    ∀ rest, decode (writes (lcd_print text) ++ rest) = text.map (fun b => (true, b)) ++ decode rest := by
  induction text with
  | nil => simp [lcd_print, writes]
  | cons b text ih =>
    obtain ⟨hb0, hb⟩ := h b (by simp)
    obtain ⟨i1, i2, i3⟩ := ih (fun x hx => h x (by simp [hx]))
    obtain ⟨s1, _, _, _, _, _, s7⟩ := send_bytes b hb 1 (by decide)
    have hw : writes (lcd_print (b :: text)) =
        writes (lcd_send b PIN_RS) ++ writes (lcd_print text) := by
      rw [print_cons b text hb0, writes_append, writes_data, Nat.mod_eq_of_lt hb]
    rw [hw]
    refine ⟨?_, ?_, ?_⟩
    · rw [List.length_append, i1]
      have : (writes (lcd_send b PIN_RS)).length = 4 := by
        show (writes (lcd_send b 1)).length = 4
        rw [s1]; rfl
      rw [this, List.length_cons]
      omega
    · intro w hw2
      rcases List.mem_append.mp hw2 with hw2 | hw2
      · exact ⟨(s7 w hw2).2.1, (s7 w hw2).2.2⟩
      · exact i2 w hw2
    · intro rest
      rw [List.append_assoc, decode_send_append b PIN_RS hb (by decide), i3 rest]
      rfl

theorem set_cursor_eq (row col : Nat) (hrow : row < 2) (hcol : col < 16) :
    lcd_set_cursor row col = some (lcd_cmd (0x80 ||| cellAddr row col)) := by
  interval_cases row <;> interval_cases col <;> rfl

theorem addr_facts : ∀ a < 128, 0x80 ||| a < 256 ∧ 0x80 ||| a ≠ 1 ∧ 0x80 ≤ 0x80 ||| a ∧
    (0x80 ||| a) - 0x80 = a := by
  decide

theorem cellAddr_lt (row col : Nat) (hrow : row < 2) (hcol : col < 16) :
    cellAddr row col < 0x80 := by
  interval_cases row <;> simp [cellAddr, offsets] <;> omega

/-! ### The claims on the display driver -/

/-- C5: for `row` in {0, 1} and `col` in [0, 16), `lcd_set_cursor(row, col)` followed by
`lcd_print("X")` is seen on the wire as exactly the command `0x80 | (col + offsets[row])`
(register select low) followed by the data byte `X` (register select high); the address
is below 0x80, distinct cells have distinct addresses, and the simulated controller
stores `X` at that address and changes no other cell. -/
theorem lcd_set_cursor_print (row col : Nat) (hrow : row < 2) (hcol : col < 16) :
    ∃ t, lcd_set_cursor row col = some t ∧
      decode (writes (t ++ lcd_print ['X'.toNat])) =
        [(false, 0x80 ||| cellAddr row col), (true, 'X'.toNat)] ∧
      cellAddr row col = col + (if row = 0 then 0x00 else 0x40) ∧
      cellAddr row col < 0x80 ∧
      (∀ row2 < 2, ∀ col2 < 16, cellAddr row2 col2 = cellAddr row col →
        row2 = row ∧ col2 = col) ∧
      (∀ d : Display, (d.run (t ++ lcd_print ['X'.toNat])).ddram =
        fun a => if a = cellAddr row col then 'X'.toNat else d.ddram a) := by
  have ha := cellAddr_lt row col hrow hcol
  obtain ⟨a1, a2, a3, a4⟩ := addr_facts (cellAddr row col) ha
  have hdec : decode (writes (lcd_cmd (0x80 ||| cellAddr row col) ++ lcd_print ['X'.toNat])) =
      [(false, 0x80 ||| cellAddr row col), (true, 'X'.toNat)] := by
    rw [writes_append, writes_cmd, Nat.mod_eq_of_lt a1,
      decode_send_append _ 0 a1 (by decide)]
    have := (print_facts ['X'.toNat] (by decide)).2.2 []
    rw [List.append_nil] at this
    rw [this]
    rfl
  refine ⟨_, set_cursor_eq row col hrow hcol, hdec, ?_, ha, ?_, ?_⟩
  · interval_cases row <;> simp [cellAddr, offsets]
  · intro row2 hrow2 col2 hcol2 h
    interval_cases row <;> interval_cases row2 <;> simp [cellAddr, offsets] at h ⊢ <;> omega
  · intro d
    simp only [Display.run, hdec, List.foldl_cons, List.foldl_nil, Display.exec, a2, if_false,
      a3, if_true, a4]

/-- C5, instance: the cell at row 1, column 3. -/
theorem lcd_set_cursor_print_witness :
    ∃ t, lcd_set_cursor ((1 : Nat) : Int) ((3 : Nat) : Int) = some t ∧
      decode (writes (t ++ lcd_print ['X'.toNat])) =
        [(false, 0x80 ||| cellAddr 1 3), (true, 'X'.toNat)] ∧
      cellAddr 1 3 = 3 + (if 1 = 0 then 0x00 else 0x40) ∧
      cellAddr 1 3 < 0x80 ∧
      (∀ row2 < 2, ∀ col2 < 16, cellAddr row2 col2 = cellAddr 1 3 → row2 = 1 ∧ col2 = 3) ∧
      (∀ d : Display, (d.run (t ++ lcd_print ['X'.toNat])).ddram =
        fun a => if a = cellAddr 1 3 then 'X'.toNat else d.ddram a) :=
  lcd_set_cursor_print 1 3 (by decide) (by decide)

/-- C6: for an 8-bit value `v` and a mode 0 or RS, `lcd_send(v, mode)` issues exactly four
expander writes, the high nibble with enable high then low, then the low nibble with
enable high then low; enable is the only bit that differs within a pair, read/write is
never set, and `v` is the upper half of the 2nd write joined with the upper half of the
4th write shifted down. -/
theorem lcd_send_transfer (v m : Nat) (hv : v < 256) (hm : m = 0 ∨ m = PIN_RS) :
    writes (lcd_send v m) =
      [(v &&& 0xF0) ||| m ||| PIN_BL ||| PIN_EN, (v &&& 0xF0) ||| m ||| PIN_BL,
       ((v <<< 4) &&& 0xF0) ||| m ||| PIN_BL ||| PIN_EN, ((v <<< 4) &&& 0xF0) ||| m ||| PIN_BL] ∧
    ((v &&& 0xF0) ||| m ||| PIN_BL) &&& PIN_EN = 0 ∧
    (((v <<< 4) &&& 0xF0) ||| m ||| PIN_BL) &&& PIN_EN = 0 ∧
    (∀ w ∈ writes (lcd_send v m), w &&& PIN_RW = 0) ∧
    v = (((v &&& 0xF0) ||| m ||| PIN_BL) &&& 0xF0) |||
      (((((v <<< 4) &&& 0xF0) ||| m ||| PIN_BL) &&& 0xF0) >>> 4) := by
  have hm2 : m < 2 := by rcases hm with rfl | rfl <;> decide
  obtain ⟨s1, _, _, s4, _, s6, s7⟩ := send_bytes v hv m hm2
  exact ⟨s1, s6.1, s6.2, fun w hw => (s7 w hw).1, s4.symm⟩

/-- C6, instance: the data byte 0xA5. -/
theorem lcd_send_transfer_witness :
    writes (lcd_send 0xA5 PIN_RS) = [0xAD, 0xA9, 0x5D, 0x59] :=
  (lcd_send_transfer 0xA5 PIN_RS (by decide) (Or.inr rfl)).1

/-- C7: for a text of `n` bytes without NUL, `lcd_print` issues exactly `4 * n` expander
writes, each with register select set, and the observer reassembles exactly the bytes of
the text, in order, as data; the empty text issues no write. -/
theorem lcd_print_roundtrip (text : List Nat) (h : ∀ b ∈ text, 0 < b ∧ b < 256) :
    (writes (lcd_print text)).length = 4 * text.length ∧
    (∀ w ∈ writes (lcd_print text), w &&& PIN_RS = PIN_RS) ∧
    decode (writes (lcd_print text)) = text.map (fun b => (true, b)) ∧
    writes (lcd_print []) = [] := by
  obtain ⟨p1, p2, p3⟩ := print_facts text h
  refine ⟨p1, fun w hw => (p2 w hw).1, ?_, rfl⟩
  have := p3 []
  rw [List.append_nil] at this
  rw [this]
  simp [decode, latched, pairNibbles]

/-- C7, instance: the prompt `Nope!`. -/
theorem lcd_print_roundtrip_witness :
    decode (writes (lcd_print [78, 111, 112, 101, 33])) =
      [(true, 78), (true, 111), (true, 112), (true, 101), (true, 33)] :=
  (lcd_print_roundtrip [78, 111, 112, 101, 33] (by decide)).2.2.1

/-- C8: the expander bytes of `lcd_init` are the three raw writes 0x30, 0x30, 0x20, then
the two-nibble transfers of the commands 0x28, 0x0C, 0x06 and 0x01 with register select
low (16 writes), and nothing else. -/
theorem lcd_init_trace :
    writes lcd_init =
      [0x30, 0x30, 0x20] ++ writes (lcd_send 0x28 0) ++ writes (lcd_send 0x0C 0) ++
        writes (lcd_send 0x06 0) ++ writes (lcd_send 0x01 0) ∧
    writes lcd_init =
      [0x30, 0x30, 0x20, 0x2C, 0x28, 0x8C, 0x88, 0x0C, 0x08, 0xCC, 0xC8,
       0x0C, 0x08, 0x6C, 0x68, 0x0C, 0x08, 0x1C, 0x18] ∧
    (∀ w ∈ (writes lcd_init).drop 3, w &&& PIN_RS = 0) ∧
    decode ((writes lcd_init).drop 3) =
      [(false, 0x28), (false, 0x0C), (false, 0x06), (false, 0x01)] := by
  decide

/-- C9: `lcd_clear` is seen on the wire as the single command 0x01; the simulated
controller is left all blank with address 0 from every prior state; and two calls in
succession leave the same display as one. -/
theorem lcd_clear_display :
    decode (writes lcd_clear) = [(false, 0x01)] ∧
    (∀ d : Display, d.run lcd_clear = Display.blank) ∧
    (∀ a, Display.blank.ddram a = BLANK) ∧ Display.blank.addr = cellAddr 0 0 ∧
    (∀ d : Display, d.run (lcd_clear ++ lcd_clear) = d.run lcd_clear) ∧
    (∀ d : Display, (d.run lcd_clear).run lcd_clear = d.run lcd_clear) := by
  have h1 : decode (writes lcd_clear) = [(false, 0x01)] := by decide
  have h2 : decode (writes (lcd_clear ++ lcd_clear)) = [(false, 0x01), (false, 0x01)] := by decide
  have h3 : ∀ d : Display, d.run lcd_clear = Display.blank := by
    intro d
    simp [Display.run, h1, Display.exec]
  refine ⟨h1, h3, fun _ => rfl, rfl, ?_, ?_⟩
  · intro d
    rw [h3]
    simp [Display.run, h2, Display.exec]
  · intro d
    rw [h3, h3]

/-- C10, as stated, fails: the first byte `lcd_init` writes is 0x30, with the backlight
bit clear. -/
theorem lcd_backlight_counterexample :
    ¬ (∀ w ∈ writes lcd_init, w &&& PIN_BL = PIN_BL) ∧
    (writes lcd_init).head? = some 0x30 ∧ 0x30 &&& PIN_BL = 0 := by
  decide

/-- C10, amended: the backlight bit is set in every byte written by `lcd_clear`,
`lcd_set_cursor` and `lcd_print` and in the 16 bytes of the four command transfers of
`lcd_init`; the three raw bytes 0x30, 0x30, 0x20 that `lcd_init` writes first have it
clear. -/
theorem lcd_backlight :
    (∀ w ∈ writes lcd_clear, w &&& PIN_BL = PIN_BL) ∧
    (∀ (row col : Int) (t : List LcdEvent), lcd_set_cursor row col = some t →
      ∀ w ∈ writes t, w &&& PIN_BL = PIN_BL) ∧
    (∀ text : List Nat, ∀ w ∈ writes (lcd_print text), w &&& PIN_BL = PIN_BL) ∧
    (∀ w ∈ (writes lcd_init).drop 3, w &&& PIN_BL = PIN_BL) ∧
    ((writes lcd_init).take 3 = [0x30, 0x30, 0x20] ∧
      ∀ w ∈ (writes lcd_init).take 3, w &&& PIN_BL = 0) := by
  have hcmd : ∀ c : Nat, ∀ w ∈ writes (lcd_cmd c), w &&& PIN_BL = PIN_BL := by
    intro c w hw
    rw [writes_cmd] at hw
    exact ((send_bytes (c % 256) (Nat.mod_lt _ (by decide)) 0 (by decide)).2.2.2.2.2.2 w hw).2.2
  refine ⟨by decide, ?_, ?_, by decide, by decide, by decide⟩
  · intro row col t ht w hw
    unfold lcd_set_cursor at ht
    split_ifs at ht
    rcases hoff : offsets.get? row.toNat with _ | off
    · rw [hoff] at ht; cases ht
    · rw [hoff] at ht
      have ht2 := Option.some.inj ht
      subst ht2
      exact hcmd _ w hw
  · intro text
    induction text with
    | nil => simp [lcd_print, writes]
    | cons b text ih =>
      intro w hw
      by_cases hb : b = 0
      · simp [lcd_print, hb, writes] at hw
      · rw [lcd_print, if_neg hb, writes_append, writes_data, List.mem_append] at hw
        rcases hw with hw | hw
        · exact ((send_bytes (b % 256) (Nat.mod_lt _ (by decide)) 1 (by decide)).2.2.2.2.2.2
            w hw).2.2
        · exact ih w hw

/-- C10 amended, instance: the bytes of `lcd_set_cursor(1, 0)`. -/
theorem lcd_backlight_witness :
    lcd_set_cursor 1 0 = some (lcd_cmd 0xC0) ∧
    (∀ w ∈ writes (lcd_cmd 0xC0), w &&& PIN_BL = PIN_BL) :=
  ⟨by decide, lcd_backlight.2.1 1 0 (lcd_cmd 0xC0) (by decide)⟩

end Lcd

namespace Lcd

/-! ### The driver on a bus that can fail -/

theorem perform_bytes (bus : Bus) (es : List LcdEvent) (log : List (Nat × Int)) :
    (perform bus es log).2.map Prod.fst = log.map Prod.fst ++ writes es := by
  induction es generalizing log with
  | nil => simp [perform, writes]
  | cons e es ih =>
    cases e with
    | write b => simp [perform, writes, ih, transact]
    | delayUs us => simpa [perform, writes] using ih log
    | delayMs ms => simpa [perform, writes] using ih log

/-- C11, as stated, fails: on a bus where no transaction is acknowledged, the caller of
`lcd_clear` receives the same (empty) result as on a bus where all are acknowledged,
although each of the four transactions failed. -/
theorem lcd_write_report_counterexample :
    ¬ ((perform nakBus lcd_clear []).1 ≠ (perform ackBus lcd_clear []).1) ∧
    (perform nakBus lcd_clear []).2 = [(0x0C, -1), (0x08, -1), (0x1C, -1), (0x18, -1)] := by
  decide

/-- C11, amended: each `lcd_write` attempts exactly one bus transaction whatever its
result (no retry), and the result is discarded: `lcd_write` and the driver operations
return nothing, so what the caller receives is the same on every bus, and the bytes an
operation attempts are the same on every bus (a failed transaction neither stops nor
repeats a write). -/
theorem lcd_write_no_report :
    (∀ (bus : Bus) (data : Nat) (log : List (Nat × Int)),
      (lcd_write_bus bus data log).2 = log ++ [(data % 256, bus log.length (data % 256))] ∧
      perform bus (lcd_write data) log = lcd_write_bus bus data log) ∧
    (∀ (bus1 bus2 : Bus) (data : Nat) (log : List (Nat × Int)),
      (lcd_write_bus bus1 data log).1 = (lcd_write_bus bus2 data log).1) ∧
    (∀ (bus1 bus2 : Bus) (op : List LcdEvent),
      (perform bus1 op []).1 = (perform bus2 op []).1) ∧
    (∀ (bus : Bus) (op : List LcdEvent),
      (perform bus op []).2.map Prod.fst = writes op) := by
  refine ⟨fun bus data log => ⟨rfl, rfl⟩, fun _ _ _ _ => rfl, fun _ _ _ => rfl, ?_⟩
  intro bus op
  simpa using perform_bytes bus op []

end Lcd

namespace Leds

/-! ### Characters -/

theorem upper_code (n : Nat) (h1 : 97 ≤ n) (h2 : n ≤ 122) :
    (Char.ofNat (n - 32)).toNat = n - 32 := by
  interval_cases n <;> rfl

theorem lower_code (n : Nat) (h1 : 65 ≤ n) (h2 : n ≤ 90) :
    (Char.ofNat (n + 32)).toNat = n + 32 := by
  interval_cases n <;> rfl

theorem toupper_toNat (c : Char) :
    (toupper c).toNat = if 97 ≤ c.toNat ∧ c.toNat ≤ 122 then c.toNat - 32 else c.toNat := by
  unfold toupper
  split_ifs with h
  · exact upper_code _ h.1 h.2
  · rfl

theorem tolower_toNat (c : Char) :
    (tolower c).toNat = if 65 ≤ c.toNat ∧ c.toNat ≤ 90 then c.toNat + 32 else c.toNat := by
  unfold tolower
  split_ifs with h
  · exact lower_code _ h.1 h.2
  · rfl

theorem char_ext (a b : Char) (h : a.toNat = b.toNat) : a = b := by
  rw [← Char.ofNat_toNat a, ← Char.ofNat_toNat b, h]

theorem toupper_toupper (c : Char) : toupper (toupper c) = toupper c := by
  apply char_ext
  rw [toupper_toNat (toupper c), toupper_toNat c]
  split_ifs
  all_goals omega

theorem toupper_tolower (c : Char) : toupper (tolower c) = toupper c := by
  apply char_ext
  rw [toupper_toNat (tolower c), tolower_toNat c, toupper_toNat c]
  split_ifs <;> omega

theorem toupper_eq_space (c : Char) : toupper c = ' ' ↔ c = ' ' := by
  constructor
  · intro h
    apply char_ext
    have := congrArg Char.toNat h
    rw [toupper_toNat] at this
    have h32 : (' ' : Char).toNat = 32 := rfl
    rw [h32] at this ⊢
    split_ifs at this <;> omega
  · intro h
    subst h
    rfl

theorem toupper_eq_NUL (c : Char) : toupper c = Char.ofNat 0 ↔ c = Char.ofNat 0 := by
  constructor
  · intro h
    apply char_ext
    have := congrArg Char.toNat h
    rw [toupper_toNat] at this
    have h0 : (Char.ofNat 0).toNat = 0 := rfl
    rw [h0] at this ⊢
    split_ifs at this <;> omega
  · intro h
    subst h
    rfl

theorem tolower_eq_NUL (c : Char) : tolower c = Char.ofNat 0 ↔ c = Char.ofNat 0 := by
  constructor
  · intro h
    apply char_ext
    have := congrArg Char.toNat h
    rw [tolower_toNat] at this
    have h0 : (Char.ofNat 0).toNat = 0 := rfl
    rw [h0] at this ⊢
    split_ifs at this
    all_goals omega
  · intro h
    subst h
    rfl

/-! ### The loops of `morse_flash` -/



theorem findAndPlay_eq (led : Led) (c : Char) (tbl : List morse_t) :
    findAndPlay led c tbl =
      match tbl.find? (fun e => e.letter = c) with
      | some e => ((playPattern led e.pattern.toList).1,
          (playPattern led e.pattern.toList).2 ++ [LedEvent.delayMs LETTER_SPACE])
      | none => (led, []) := by
  induction tbl with
  | nil => rfl
  | cons e tbl ih =>
    by_cases h : e.letter = c
    · simp [findAndPlay, List.find?, h]
    · simp [findAndPlay, List.find?, h, ih]

theorem playPattern_gpio (led : Led) (p : List Char) :
    (playPattern led p).1.gpio = led.gpio := by
  induction p generalizing led with
  | nil => rfl
  | cons s p ih => simp [playPattern, ih, led_on, led_off]

theorem pulsesFrom_playPattern (led : Led) (p : List Char) (rest : List LedEvent) :
    pulsesFrom none ((playPattern led p).2 ++ rest) =
      p.map (fun s => if s = '.' then DOT else DASH) ++ pulsesFrom none rest := by
  induction p generalizing led with
  | nil => rfl
  | cons s p ih =>
    simp [playPattern, led_on, led_off, pulsesFrom, ih]

theorem findAndPlay_pattern (led : Led) (c : Char) :
    findAndPlay led (toupper c) morse_table =
      match patternOf c with
      | some p => ((playPattern led p).1, (playPattern led p).2 ++ [LedEvent.delayMs LETTER_SPACE])
      | none => (led, []) := by
  rw [findAndPlay_eq, patternOf]
  cases morse_table.find? (fun e => e.letter = toupper c) <;> rfl

theorem patternOf_space : patternOf ' ' = none := by decide

theorem patternOf_NUL : patternOf (Char.ofNat 0) = none := by decide

theorem morse_flash_nil (led : Led) : morse_flash led [] = (led, []) := rfl

theorem morse_flash_NUL (led : Led) (rest : List Char) :
    morse_flash led (Char.ofNat 0 :: rest) = (led, []) := by
  simp [morse_flash]

theorem morse_flash_space (led : Led) (rest : List Char) :
    morse_flash led (' ' :: rest) =
      ((morse_flash led rest).1, LedEvent.delayMs WORD_SPACE :: (morse_flash led rest).2) := by
  have h : (' ' : Char) ≠ Char.ofNat 0 := by decide
  have h2 : toupper ' ' = ' ' := rfl
  simp only [morse_flash, h, if_false, h2, if_true]

theorem morse_flash_letter (led : Led) (c : Char) (rest : List Char) (p : List Char)
    (hp : patternOf c = some p) :
    morse_flash led (c :: rest) =
      ((morse_flash (playPattern led p).1 rest).1,
        (playPattern led p).2 ++ [LedEvent.delayMs LETTER_SPACE] ++
          (morse_flash (playPattern led p).1 rest).2) := by
  have h0 : c ≠ Char.ofNat 0 := by
    intro h; rw [h, patternOf_NUL] at hp; cases hp
  have h1 : toupper c ≠ ' ' := by
    intro h; rw [(toupper_eq_space c).mp h, patternOf_space] at hp; cases hp
  simp only [morse_flash, h0, if_false, h1, findAndPlay_pattern, hp]

theorem morse_flash_skip (led : Led) (c : Char) (rest : List Char)
    (h0 : c ≠ Char.ofNat 0) (h1 : c ≠ ' ') (hp : patternOf c = none) :
    morse_flash led (c :: rest) = morse_flash led rest := by
  have h2 : toupper c ≠ ' ' := fun h => h1 ((toupper_eq_space c).mp h)
  simp only [morse_flash, h0, if_false, h2, findAndPlay_pattern, hp, List.nil_append]

theorem pattern_symbols : ∀ e ∈ morse_table, ∀ s ∈ e.pattern.toList, s = '.' ∨ s = '-' := by
  decide

theorem patternOf_symbols (c : Char) (p : List Char) (hp : patternOf c = some p) :
    ∀ s ∈ p, s = '.' ∨ s = '-' := by
  unfold patternOf at hp
  cases hf : morse_table.find? (fun e => e.letter = toupper c) with
  | none => rw [hf] at hp; cases hp
  | some e =>
    rw [hf] at hp
    have hp2 := Option.some.inj hp
    subst hp2
    exact pattern_symbols e (List.mem_of_find?_eq_some hf)

theorem symbolsOf_cons (c : Char) (rest : List Char) :
    symbolsOf (c :: rest) = (patternOf c).getD [] ++ symbolsOf rest := by
  simp [symbolsOf, List.flatMap_cons]

theorem symbolsOf_symbols (m : List Char) : ∀ s ∈ symbolsOf m, s = '.' ∨ s = '-' := by
  induction m with
  | nil => simp [symbolsOf]
  | cons c m ih =>
    intro s hs
    rw [symbolsOf_cons, List.mem_append] at hs
    rcases hs with hs | hs
    · cases hp : patternOf c with
      | none => rw [hp] at hs; simp at hs
      | some p => rw [hp] at hs; exact patternOf_symbols c p hp s hs
    · exact ih s hs

/-! ### Pulses -/

theorem pulses_morse_flash (led : Led) (m : List Char) (h : ∀ c ∈ m, supported c = true) :
    pulses (morse_flash led m).2 =
      (symbolsOf m).map (fun s => if s = '.' then DOT else DASH) := by
  induction m generalizing led with
  | nil => rfl
  | cons c m ih =>
    have hc := h c (by simp)
    unfold supported at hc
    cases hp : patternOf c with
    | none => rw [hp] at hc; cases hc
    | some p =>
      rw [morse_flash_letter led c m p hp, symbolsOf_cons, hp]
      simp only [pulses, List.append_assoc, pulsesFrom_playPattern, Option.getD_some,
        List.map_append, List.singleton_append, pulsesFrom]
      congr 1
      exact ih _ (fun x hx => h x (by simp [hx]))

/-- C12: playing `SOS` on any LED gives three dots, the letter pause, three dashes, the
letter pause, three dots, the letter pause: 9 pulses lit for 1, 1, 1, 3, 3, 3, 1, 1, 1 units,
each followed by a dark symbol pause of one unit, and a letter pause of five units after
each letter. For every message of supported characters the pulses are, in order, the
symbols of the characters' patterns, a dot lit for one unit and a dash for three. The
entry point `leds_morse_sequence` produces, for every LED bank, that same trace and those
same pulses on the pin of the EP2 object. -/
theorem morse_flash_sos (led : Led) (bank : LedBank) :
    (morse_flash led "SOS".toList).2 =
      dotEvents led.gpio ++ dotEvents led.gpio ++ dotEvents led.gpio ++
        [LedEvent.delayMs LETTER_SPACE] ++
      dashEvents led.gpio ++ dashEvents led.gpio ++ dashEvents led.gpio ++
        [LedEvent.delayMs LETTER_SPACE] ++
      dotEvents led.gpio ++ dotEvents led.gpio ++ dotEvents led.gpio ++
        [LedEvent.delayMs LETTER_SPACE] ∧
    pulses (morse_flash led "SOS".toList).2 =
      [DOT, DOT, DOT, 3 * DOT, 3 * DOT, 3 * DOT, DOT, DOT, DOT] ∧
    (pulses (morse_flash led "SOS".toList).2).length = 9 ∧
    (SYMBOL_SPACE = DOT ∧ LETTER_SPACE = 5 * DOT ∧ DASH = 3 * DOT) ∧
    (∀ m : List Char, (∀ c ∈ m, supported c = true) →
      pulses (morse_flash led m).2 =
        (symbolsOf m).map (fun s => if s = '.' then DOT else DASH) ∧
      ∀ s ∈ symbolsOf m, s = '.' ∨ s = '-') ∧
    (leds_morse_sequence "SOS".toList bank).2 =
      dotEvents bank.led_ep2.gpio ++ dotEvents bank.led_ep2.gpio ++
        dotEvents bank.led_ep2.gpio ++ [LedEvent.delayMs LETTER_SPACE] ++
      dashEvents bank.led_ep2.gpio ++ dashEvents bank.led_ep2.gpio ++
        dashEvents bank.led_ep2.gpio ++ [LedEvent.delayMs LETTER_SPACE] ++
      dotEvents bank.led_ep2.gpio ++ dotEvents bank.led_ep2.gpio ++
        dotEvents bank.led_ep2.gpio ++ [LedEvent.delayMs LETTER_SPACE] ∧
    pulses (leds_morse_sequence "SOS".toList bank).2 =
      [DOT, DOT, DOT, 3 * DOT, 3 * DOT, 3 * DOT, DOT, DOT, DOT] ∧
    (∀ m : List Char, (∀ c ∈ m, supported c = true) →
      pulses (leds_morse_sequence m bank).2 =
        (symbolsOf m).map (fun s => if s = '.' then DOT else DASH)) ∧
    (∀ m : List Char, (leds_morse_sequence m bank).2 = (morse_flash bank.led_ep2 m).2 ∧
      (leds_morse_sequence m bank).1 =
        { bank with led_ep2 := (morse_flash bank.led_ep2 m).1 }) := by
  have hsos : ∀ c ∈ "SOS".toList, supported c = true := by decide
  have hS : patternOf 'S' = some ['.', '.', '.'] := by decide
  have hO : patternOf 'O' = some ['-', '-', '-'] := by decide
  have htrace : ∀ l : Led, (morse_flash l "SOS".toList).2 =
      dotEvents l.gpio ++ dotEvents l.gpio ++ dotEvents l.gpio ++
        [LedEvent.delayMs LETTER_SPACE] ++
      dashEvents l.gpio ++ dashEvents l.gpio ++ dashEvents l.gpio ++
        [LedEvent.delayMs LETTER_SPACE] ++
      dotEvents l.gpio ++ dotEvents l.gpio ++ dotEvents l.gpio ++
        [LedEvent.delayMs LETTER_SPACE] := by
    intro l
    show (morse_flash l ['S', 'O', 'S']).2 = _
    rw [morse_flash_letter l 'S' _ _ hS, morse_flash_letter _ 'O' _ _ hO,
      morse_flash_letter _ 'S' _ _ hS, morse_flash_nil]
    simp [playPattern, led_on, led_off, dotEvents, dashEvents]
  have hpulses : ∀ l : Led, pulses (morse_flash l "SOS".toList).2 =
      [DOT, DOT, DOT, 3 * DOT, 3 * DOT, 3 * DOT, DOT, DOT, DOT] := by
    intro l
    rw [pulses_morse_flash l "SOS".toList hsos]
    decide
  have hseq : ∀ m : List Char,
      (leds_morse_sequence m bank).2 = (morse_flash bank.led_ep2 m).2 := fun _ => rfl
  refine ⟨htrace led, hpulses led, ?_, by decide, ?_, ?_, ?_, ?_, ?_⟩
  · rw [hpulses led]; rfl
  · intro m hm
    exact ⟨pulses_morse_flash led m hm, symbolsOf_symbols m⟩
  · rw [hseq]
    exact htrace bank.led_ep2
  · rw [hseq]
    exact hpulses bank.led_ep2
  · intro m hm
    rw [hseq]
    exact pulses_morse_flash bank.led_ep2 m hm
  · intro m
    exact ⟨rfl, rfl⟩

/-- C12, instance: the hint of the game, `B947D`, on the Morse LED, played directly and
through `leds_morse_sequence` on the LED bank of the program. -/
theorem morse_flash_sos_witness :
    pulses (morse_flash ⟨LED_GPIO_EP2, 0⟩ "B947D".toList).2 =
      (symbolsOf "B947D".toList).map (fun s => if s = '.' then DOT else DASH) ∧
    pulses (leds_morse_sequence "B947D".toList LedBank.init).2 =
      (symbolsOf "B947D".toList).map (fun s => if s = '.' then DOT else DASH) :=
  ⟨((morse_flash_sos ⟨LED_GPIO_EP2, 0⟩ LedBank.init).2.2.2.2.1 "B947D".toList (by decide)).1,
   (morse_flash_sos ⟨LED_GPIO_EP2, 0⟩ LedBank.init).2.2.2.2.2.2.2.1 "B947D".toList (by decide)⟩

/-! ### Durations -/

theorem totalDelay_append (a b : List LedEvent) :
    totalDelay (a ++ b) = totalDelay a + totalDelay b := by
  induction a with
  | nil => simp [totalDelay]
  | cons e a ih => cases e <;> simp [totalDelay, ih, Nat.add_assoc]

theorem totalDelay_playPattern (led : Led) (p : List Char) (hp : ∀ s ∈ p, s = '.' ∨ s = '-') :
    totalDelay (playPattern led p).2 = DOT * (2 * p.count '.' + 4 * p.count '-') := by
  induction p generalizing led with
  | nil => rfl
  | cons s p ih =>
    have ih2 := fun l => ih l (fun x hx => hp x (by simp [hx]))
    simp only [playPattern, totalDelay_append, led_on, led_off, totalDelay, List.append_eq,
      List.nil_append, ih2]
    rcases hp s (by simp) with rfl | rfl
    · simp [DOT, SYMBOL_SPACE, List.count_cons]; omega
    · simp [DOT, DASH, SYMBOL_SPACE, List.count_cons]; omega

theorem totalDelay_morse_flash (led : Led) (m : List Char) (h : ∀ c ∈ m, c ≠ Char.ofNat 0) :
    totalDelay (morse_flash led m).2 =
      DOT * (2 * (symbolsOf m).count '.' + 4 * (symbolsOf m).count '-' +
        5 * m.countP supported + 7 * m.count ' ') := by
  induction m generalizing led with
  | nil => rfl
  | cons c m ih =>
    have h0 := h c (by simp)
    have hm : ∀ x ∈ m, x ≠ Char.ofNat 0 := fun x hx => h x (by simp [hx])
    by_cases hs : c = ' '
    · subst hs
      have hsup : supported ' ' = false := by decide
      rw [morse_flash_space, symbolsOf_cons, patternOf_space]
      simp only [totalDelay, ih led hm, Option.getD_none, List.nil_append, List.countP_cons,
        hsup, List.count_cons_self]
      simp [DOT, WORD_SPACE]
      omega
    · have hcnt : (c :: m).count ' ' = m.count ' ' := by
        rw [List.count_cons]; simp [hs]
      cases hp : patternOf c with
      | none =>
        have hsup : supported c = false := by simp [supported, hp]
        rw [morse_flash_skip led c m h0 hs hp, symbolsOf_cons, hp, hcnt, ih led hm]
        simp [List.countP_cons, hsup]
      | some p =>
        have hsup : supported c = true := by simp [supported, hp]
        rw [morse_flash_letter led c m p hp, symbolsOf_cons, hp, hcnt]
        simp only [totalDelay_append, totalDelay, ih _ hm,
          totalDelay_playPattern led p (patternOf_symbols c p hp), Option.getD_some,
          List.count_append, List.countP_cons, hsup]
        simp [DOT, LETTER_SPACE]
        omega

/-- C13: the multipliers are 1, 3, 1, 5, 7 times the base unit of 200 ms, and for every
message (a string, hence without NUL) the delays of `morse_flash` sum to
`U * (2*d + 4*h + 5*l + 7*s)`: `d` dots and `h` dashes in the patterns of the supported
characters, `l` supported characters, `s` spaces. For `SOS` this is 39 units, 7800 ms. -/
theorem morse_flash_duration (led : Led) (m : List Char) (h : ∀ c ∈ m, c ≠ Char.ofNat 0) :
    (DOT = 200 ∧ DASH = 3 * DOT ∧ SYMBOL_SPACE = 1 * DOT ∧ LETTER_SPACE = 5 * DOT ∧
      WORD_SPACE = 7 * DOT) ∧
    totalDelay (morse_flash led m).2 =
      DOT * (2 * (symbolsOf m).count '.' + 4 * (symbolsOf m).count '-' +
        5 * m.countP supported + 7 * m.count ' ') ∧
    totalDelay (morse_flash led "SOS".toList).2 = 39 * DOT ∧ 39 * DOT = 7800 := by
  refine ⟨by decide, totalDelay_morse_flash led m h, ?_, by decide⟩
  rw [totalDelay_morse_flash led "SOS".toList (by decide)]
  decide

/-- C13, instance: `A B` lasts 2 + 4 + 5 + 7 + 4 + 6 + 5 = 33 units. -/
theorem morse_flash_duration_witness :
    totalDelay (morse_flash ⟨LED_GPIO_EP2, 0⟩ "A B".toList).2 =
      DOT * (2 * (symbolsOf "A B".toList).count '.' + 4 * (symbolsOf "A B".toList).count '-' +
        5 * "A B".toList.countP supported + 7 * "A B".toList.count ' ') :=
  (morse_flash_duration ⟨LED_GPIO_EP2, 0⟩ "A B".toList (by decide)).2.1

/-- C14, as stated, fails: for `A B` the dark time between the last pulse of `A` and the
first pulse of `B` is not the word pause, and the letter pause is emitted between them. -/
theorem morse_flash_word_gap_counterexample :
    ¬ ((gaps (morse_flash ⟨LED_GPIO_EP2, 0⟩ "A B".toList).2).get? 1 = some WORD_SPACE) ∧
    ((morse_flash ⟨LED_GPIO_EP2, 0⟩ "A B".toList).2.drop 8).take 2 =
      [LedEvent.delayMs LETTER_SPACE, LedEvent.delayMs WORD_SPACE] := by
  decide

/-- C14, amended: playing `A B` emits, between the pulses of `A` and the pulses of `B`, the
letter pause of `A` (five units) followed by the word pause (seven units) and no pulse:
with the symbol pause after the last symbol of `A`, the dark time that separates the two
letters is 1 + 5 + 7 = 13 units. -/
theorem morse_flash_word_gap (led : Led) :
    (morse_flash led "A B".toList).2 =
      dotEvents led.gpio ++ dashEvents led.gpio ++
        [LedEvent.delayMs LETTER_SPACE, LedEvent.delayMs WORD_SPACE] ++
      dashEvents led.gpio ++ dotEvents led.gpio ++ dotEvents led.gpio ++ dotEvents led.gpio ++
        [LedEvent.delayMs LETTER_SPACE] ∧
    gaps (morse_flash led "A B".toList).2 =
      [SYMBOL_SPACE, SYMBOL_SPACE + LETTER_SPACE + WORD_SPACE, SYMBOL_SPACE, SYMBOL_SPACE,
        SYMBOL_SPACE] ∧
    SYMBOL_SPACE + LETTER_SPACE + WORD_SPACE = 13 * DOT := by
  have hA : patternOf 'A' = some ['.', '-'] := by decide
  have hB : patternOf 'B' = some ['-', '.', '.', '.'] := by decide
  have hev : (morse_flash led "A B".toList).2 =
      dotEvents led.gpio ++ dashEvents led.gpio ++
        [LedEvent.delayMs LETTER_SPACE, LedEvent.delayMs WORD_SPACE] ++
      dashEvents led.gpio ++ dotEvents led.gpio ++ dotEvents led.gpio ++ dotEvents led.gpio ++
        [LedEvent.delayMs LETTER_SPACE] := by
    show (morse_flash led ['A', ' ', 'B']).2 = _
    rw [morse_flash_letter led 'A' _ _ hA, morse_flash_space, morse_flash_letter _ 'B' _ _ hB,
      morse_flash_nil]
    simp [playPattern, led_on, led_off, dotEvents, dashEvents]
  refine ⟨hev, ?_, by decide⟩
  rw [hev]
  simp [gaps, gapsFrom, dotEvents, dashEvents, SYMBOL_SPACE, LETTER_SPACE, WORD_SPACE, DOT, DASH]

/-! ### Case and unsupported characters -/

theorem morse_flash_map_toupper (led : Led) (m : List Char) :
    morse_flash led (m.map toupper) = morse_flash led m := by
  induction m generalizing led with
  | nil => rfl
  | cons c m ih =>
    simp only [List.map_cons, morse_flash, toupper_toupper, toupper_eq_NUL, ih]

theorem morse_flash_map_tolower (led : Led) (m : List Char) :
    morse_flash led (m.map tolower) = morse_flash led m := by
  induction m generalizing led with
  | nil => rfl
  | cons c m ih =>
    simp only [List.map_cons, morse_flash, toupper_tolower, tolower_eq_NUL, ih]

/-- C15: for every message, `morse_flash` produces the same events and delays (and leaves
the same LED state) for the message, for the message in upper case and for the message
in lower case; `b947d` upper-cased is `B947D`, and both play identically. -/
theorem morse_flash_case (led : Led) (m : List Char) :
    morse_flash led (m.map toupper) = morse_flash led m ∧
    morse_flash led (m.map tolower) = morse_flash led m ∧
    "b947d".toList.map toupper = "B947D".toList ∧
    "B947D".toList.map tolower = "b947d".toList ∧
    morse_flash led "b947d".toList = morse_flash led "B947D".toList := by
  refine ⟨morse_flash_map_toupper led m, morse_flash_map_tolower led m, by decide, by decide, ?_⟩
  have h : "B947D".toList = "b947d".toList.map toupper := by decide
  rw [h, morse_flash_map_toupper]

theorem table_letters : ∀ e ∈ morse_table, isUpperOrDigit e.letter = true := by decide

theorem find_letter : ∀ n, ((65 ≤ n ∧ n ≤ 90) ∨ (48 ≤ n ∧ n ≤ 57)) →
    (morse_table.find? (fun e => e.letter = Char.ofNat n)).isSome = true := by
  intro n hn
  rcases hn with ⟨h1, h2⟩ | ⟨h1, h2⟩ <;> interval_cases n <;> decide

theorem supported_eq (c : Char) : supported c = isUpperOrDigit (toupper c) := by
  unfold supported patternOf
  rw [Option.isSome_map']
  cases hu : isUpperOrDigit (toupper c)
  · rw [Bool.eq_false_iff]
    intro h
    obtain ⟨e, he⟩ := Option.isSome_iff_exists.mp h
    have hmem := List.mem_of_find?_eq_some he
    have hl := List.find?_some he
    simp only [decide_eq_true_eq] at hl
    have := table_letters e hmem
    rw [hl, hu] at this
    cases this
  · have h := find_letter (toupper c).toNat (by
      simp only [isUpperOrDigit, Bool.or_eq_true, Bool.and_eq_true, decide_eq_true_eq] at hu
      exact hu)
    rw [Char.ofNat_toNat] at h
    exact h

theorem morse_flash_filter (led : Led) (m : List Char) (h : ∀ c ∈ m, c ≠ Char.ofNat 0) :
    morse_flash led (m.filter played) = morse_flash led m := by
  induction m generalizing led with
  | nil => rfl
  | cons c m ih =>
    have h0 := h c (by simp)
    have hm : ∀ x ∈ m, x ≠ Char.ofNat 0 := fun x hx => h x (by simp [hx])
    by_cases hs : c = ' '
    · subst hs
      have hp : played ' ' = true := by decide
      rw [List.filter_cons_of_pos hp, morse_flash_space, morse_flash_space, ih led hm]
    · cases hp : patternOf c with
      | none =>
        have hpl : played c = false := by
          have : supported c = false := by simp [supported, hp]
          rw [supported_eq] at this
          simp [played, hs, this]
        rw [List.filter_cons_of_neg (by simp [hpl]), morse_flash_skip led c m h0 hs hp, ih led hm]
      | some p =>
        have hpl : played c = true := by
          have : supported c = true := by simp [supported, hp]
          rw [supported_eq] at this
          simp [played, this]
        rw [List.filter_cons_of_pos hpl, morse_flash_letter led c _ p hp,
          morse_flash_letter led c _ p hp, ih _ hm]

theorem morse_flash_unplayed (led : Led) (m : List Char) (h : ∀ c ∈ m, played c = false) :
    morse_flash led m = (led, []) := by
  induction m generalizing led with
  | nil => rfl
  | cons c m ih =>
    have hc := h c (by simp)
    simp only [played, Bool.or_eq_false_iff, decide_eq_false_iff_not] at hc
    by_cases h0 : c = Char.ofNat 0
    · rw [h0, morse_flash_NUL]
    · have hp : patternOf c = none := by
        have : supported c = false := by rw [supported_eq]; exact hc.2
        simpa [supported] using this
      rw [morse_flash_skip led c m h0 hc.1 hp]
      exact ih led (fun x hx => h x (by simp [hx]))

/-- C16: for every message (a string, hence without NUL), deleting every character that is
neither a space nor, after upper-casing, a letter `A` to `Z` or a digit leaves the result
of `morse_flash` (events, delays and LED state) unchanged; a message made only of such
characters produces no event and no delay. The characters with a table entry are exactly
those that upper-case to a letter or a digit. -/
theorem morse_flash_skips (led : Led) (m : List Char) (h : ∀ c ∈ m, c ≠ Char.ofNat 0) :
    morse_flash led (m.filter played) = morse_flash led m ∧
    ((∀ c ∈ m, played c = false) → (morse_flash led m).2 = []) ∧
    (∀ c : Char, supported c = isUpperOrDigit (toupper c)) := by
  refine ⟨morse_flash_filter led m h, ?_, supported_eq⟩
  intro hall
  rw [morse_flash_unplayed led m hall]

/-- C16, instance: `S.O,S!` plays as `SOS`, and `?!` plays nothing. -/
theorem morse_flash_skips_witness :
    morse_flash ⟨LED_GPIO_EP2, 0⟩ ("S.O,S!".toList.filter played) =
      morse_flash ⟨LED_GPIO_EP2, 0⟩ "S.O,S!".toList ∧
    "S.O,S!".toList.filter played = "SOS".toList ∧
    (morse_flash ⟨LED_GPIO_EP2, 0⟩ "?!".toList).2 = [] :=
  ⟨(morse_flash_skips ⟨LED_GPIO_EP2, 0⟩ "S.O,S!".toList (by decide)).1, by decide,
   (morse_flash_skips ⟨LED_GPIO_EP2, 0⟩ "?!".toList (by decide)).2.1 (by decide)⟩

/-- C17: the Morse table has 36 entries; its letters are pairwise distinct and are exactly
`A` to `Z` and `0` to `9`; every pattern is a non-empty string of `.` and `-` and equals the
international Morse pattern of its character (1 to 4 symbols for a letter, 5 for a digit);
the patterns are pairwise distinct, and no two entries share a letter, so the first match
of the lookup is the only match. -/
theorem morse_table_standard :
    morse_table.length = 36 ∧
    (morse_table.map (fun e => e.letter)).Nodup ∧
    morse_table.map (fun e => e.letter) = "ABCDEFGHIJKLMNOPQRSTUVWXYZ1234567890".toList ∧
    (∀ e ∈ morse_table, e.pattern.toList ≠ [] ∧ ∀ s ∈ e.pattern.toList, s = '.' ∨ s = '-') ∧
    (∀ e ∈ morse_table,
      internationalMorse.lookup e.letter = some (e.pattern.toList.map (fun s => s == '-'))) ∧
    (∀ e ∈ morse_table,
      (65 ≤ e.letter.toNat ∧ e.letter.toNat ≤ 90 →
        1 ≤ e.pattern.length ∧ e.pattern.length ≤ 4) ∧
      (48 ≤ e.letter.toNat ∧ e.letter.toNat ≤ 57 → e.pattern.length = 5)) ∧
    (morse_table.map (fun e => e.pattern)).Nodup ∧
    (∀ e1 ∈ morse_table, ∀ e2 ∈ morse_table, e1.letter = e2.letter → e1 = e2) := by
  decide

end Leds
namespace Game

/-! ### Pieces of one pass of the game loop -/

theorem storesOf_append (a b : List GEvent) : storesOf (a ++ b) = storesOf a ++ storesOf b := by
  induction a with
  | nil => rfl
  | cons e a ih => cases e <;> simp [storesOf, ih]

theorem storesOf_lcd (es : List Lcd.LcdEvent) : storesOf (es.map GEvent.lcd) = [] := by
  induction es with
  | nil => rfl
  | cons e es ih => simpa [storesOf] using ih

theorem storesOf_led (es : List Leds.LedEvent) : storesOf (es.map GEvent.led) = [] := by
  induction es with
  | nil => rfl
  | cons e es ih => simpa [storesOf] using ih

theorem Same.refl (st : State) : Same st st := ⟨rfl, rfl, rfl, rfl, rfl, fun _ h => h⟩

theorem Same.trans {a b c : State} (h1 : Same a b) (h2 : Same b c) : Same a c :=
  ⟨h2.1.trans h1.1, h2.2.1.trans h1.2.1, h2.2.2.1.trans h1.2.2.1, h2.2.2.2.1.trans h1.2.2.2.1,
   h2.2.2.2.2.1.trans h1.2.2.2.2.1, fun e he => h2.2.2.2.2.2 e (h1.2.2.2.2.2 e he)⟩

theorem same_lcdEvents (es : List Lcd.LcdEvent) (st : State) : Same st (lcdEvents es st) :=
  ⟨rfl, rfl, rfl, rfl, by simp [lcdEvents, storesOf_append, storesOf_lcd],
   fun e he => by simp [lcdEvents, he]⟩

theorem same_ledEvents (es : List Leds.LedEvent) (st : State) : Same st (ledEvents es st) :=
  ⟨rfl, rfl, rfl, rfl, by simp [ledEvents, storesOf_append, storesOf_led],
   fun e he => by simp [ledEvents, he]⟩

theorem same_vTaskDelay (ms : Nat) (st : State) : Same st (vTaskDelay ms st) :=
  ⟨rfl, rfl, rfl, rfl, by simp [vTaskDelay, storesOf_append, storesOf],
   fun e he => by simp [vTaskDelay, he]⟩

theorem same_lcd_print (s : List Char) (st : State) : Same st (lcd_print s st) :=
  same_lcdEvents _ st

theorem same_lcd_clear (st : State) : Same st (lcd_clear st) :=
  same_lcdEvents _ st

theorem lcd_set_cursor_row0 (st : State) :
    lcd_set_cursor 0 0 st = some (lcdEvents (Lcd.lcd_cmd 0x80) st) := rfl

theorem lcd_set_cursor_row1 (st : State) :
    lcd_set_cursor 1 0 st = some (lcdEvents (Lcd.lcd_cmd 0xC0) st) := rfl

theorem same_led_on_err (st : State) : Same st (led_on_err st) :=
  ⟨rfl, rfl, rfl, rfl, by simp [led_on_err, ledEvents, storesOf_append, storesOf_led],
   fun e he => by simp [led_on_err, ledEvents, he]⟩

theorem same_led_off_err (st : State) : Same st (led_off_err st) :=
  ⟨rfl, rfl, rfl, rfl, by simp [led_off_err, ledEvents, storesOf_append, storesOf_led],
   fun e he => by simp [led_off_err, ledEvents, he]⟩

theorem same_morse (m : List Char) (st : State) : Same st (leds_morse_sequence m st) :=
  ⟨rfl, rfl, rfl, rfl,
   by simp [leds_morse_sequence, ledEvents, storesOf_append, storesOf_led],
   fun e he => by simp [leds_morse_sequence, ledEvents, he]⟩

theorem failure_spec (st : State) : ∃ st2, failure st = some st2 ∧ Same st st2 := by
  refine ⟨lcd_clear (led_off_err (vTaskDelay 1000 (lcd_print "Nope!".toList
    (lcdEvents (Lcd.lcd_cmd 0x80) (vTaskDelay 500 (led_on_err st)))))), ?_, ?_⟩
  · simp only [failure, lcd_set_cursor_row0, bind, Option.bind]
  exact (same_led_on_err st).trans <| (same_vTaskDelay _ _).trans <|
    (same_lcdEvents _ _).trans <| (same_lcd_print _ _).trans <| (same_vTaskDelay _ _).trans <|
    (same_led_off_err _).trans (same_lcd_clear _)

theorem success_spec (st : State) :
    ∃ st2, success st = some st2 ∧ st2.password = st.password ∧ st2.index = st.index ∧
      st2.sentinelle = 1 ∧ st2.leds.led_ep1 = ⟨st.leds.led_ep1.gpio, 1⟩ ∧
      storesOf st2.log = storesOf st.log ∧ (∀ e ∈ st.log, e ∈ st2.log) ∧
      GEvent.led (Leds.LedEvent.setLevel st.leds.led_ep1.gpio 1) ∈ st2.log := by
  have h0 : (led_on_ep1 st).password = st.password ∧ (led_on_ep1 st).index = st.index ∧
      (led_on_ep1 st).leds.led_ep1 = ⟨st.leds.led_ep1.gpio, 1⟩ := ⟨rfl, rfl, rfl⟩
  have h1 : storesOf (led_on_ep1 st).log = storesOf st.log := by
    simp [led_on_ep1, ledEvents, storesOf_append, storesOf_led]
  have h2 : ∀ e ∈ st.log, e ∈ (led_on_ep1 st).log := fun e he => by
    simp [led_on_ep1, ledEvents, he]
  have h3 : GEvent.led (Leds.LedEvent.setLevel st.leds.led_ep1.gpio 1) ∈ (led_on_ep1 st).log := by
    simp [led_on_ep1, ledEvents, Leds.led_on]
  have chain : Same (led_on_ep1 st)
      (vTaskDelay 500 (lcd_print "Wait for part 2!".toList (lcdEvents (Lcd.lcd_cmd 0xC0)
        (lcd_print "Reussite!".toList (lcdEvents (Lcd.lcd_cmd 0x80)
          (vTaskDelay 500 (led_on_ep1 st))))))) :=
    (same_vTaskDelay _ _).trans <| (same_lcdEvents _ _).trans <| (same_lcd_print _ _).trans <|
      (same_lcdEvents _ _).trans <| (same_lcd_print _ _).trans (same_vTaskDelay _ _)
  have hs : success st = some { (vTaskDelay 500 (lcd_print "Wait for part 2!".toList
      (lcdEvents (Lcd.lcd_cmd 0xC0) (lcd_print "Reussite!".toList (lcdEvents (Lcd.lcd_cmd 0x80)
        (vTaskDelay 500 (led_on_ep1 st))))))) with sentinelle := 1 } := by
    simp only [success, lcd_set_cursor_row0, lcd_set_cursor_row1, bind, Option.bind]
  rw [hs]
  generalize (vTaskDelay 500 (lcd_print "Wait for part 2!".toList
      (lcdEvents (Lcd.lcd_cmd 0xC0) (lcd_print "Reussite!".toList (lcdEvents (Lcd.lcd_cmd 0x80)
        (vTaskDelay 500 (led_on_ep1 st))))))) = x at chain
  obtain ⟨c1, c2, _, c4, c5, c6⟩ := chain
  exact ⟨_, rfl, c1.trans h0.1, c2.trans h0.2.1, rfl, c4.trans h0.2.2, c5.trans h1,
    fun e he => c6 e (h2 e he), c6 _ h3⟩

theorem storeKey_spec (key : Char) (st : State) (h0 : 0 ≤ st.index) (h4 : st.index ≤ 4) :
    storeKey key st = some
      { st with
        password := (st.password.set st.index.toNat key).set (st.index + 1).toNat NUL
        index := st.index + 1
        log := st.log ++ [GEvent.store st.index key, GEvent.store (st.index + 1) NUL] } := by
  have a : 0 ≤ st.index ∧ st.index < 6 := ⟨h0, by omega⟩
  have b : 0 ≤ st.index + 1 ∧ st.index + 1 < 6 := ⟨by omega, by omega⟩
  simp [storeKey, store, a, b, bind, Option.bind]

theorem checkCode_lt (st : State) (h : st.index < 5) : checkCode st = some st := by
  simp [checkCode, not_le.mpr h]

theorem checkCode_right (st : State) (h : 5 ≤ st.index) (hc : cstr st.password = CODE) :
    ∃ st2, checkCode st = some st2 ∧ st2.password = st.password ∧ st2.index = 0 ∧
      st2.sentinelle = 1 ∧ st2.leds.led_ep1 = ⟨st.leds.led_ep1.gpio, 1⟩ ∧
      storesOf st2.log = storesOf st.log ∧ (∀ e ∈ st.log, e ∈ st2.log) ∧
      GEvent.led (Leds.LedEvent.setLevel st.leds.led_ep1.gpio 1) ∈ st2.log := by
  obtain ⟨s, hs, a1, a2, a3, a4, a5, a6, a7⟩ := success_spec st
  have hd := same_vTaskDelay 1000 s
  refine ⟨{ vTaskDelay 1000 s with index := 0 }, ?_, a1, rfl, a3, a4, ?_, ?_, ?_⟩
  · simp [checkCode, h, hc, hs, bind, Option.bind]
  · exact hd.2.2.2.2.1.trans a5
  · exact fun e he => hd.2.2.2.2.2 e (a6 e he)
  · exact hd.2.2.2.2.2 _ a7

theorem checkCode_wrong (st : State) (h : 5 ≤ st.index) (hc : cstr st.password ≠ CODE) :
    ∃ st2, checkCode st = some st2 ∧ st2.password = st.password ∧ st2.index = 0 ∧
      st2.sentinelle = st.sentinelle ∧ st2.leds.led_ep1 = st.leds.led_ep1 ∧
      storesOf st2.log = storesOf st.log ∧ (∀ e ∈ st.log, e ∈ st2.log) := by
  obtain ⟨s, hs, hsame⟩ := failure_spec st
  have hd := (hsame.trans (same_vTaskDelay 1000 s))
  refine ⟨{ vTaskDelay 1000 s with index := 0 }, ?_, hd.1, rfl, hd.2.2.1, hd.2.2.2.1,
    hd.2.2.2.2.1, hd.2.2.2.2.2⟩
  simp [checkCode, h, hc, hs, bind, Option.bind]

theorem onKey_eq (key : Char) (st : State) :
    onKey key st = (storeKey key st).bind (fun s1 =>
      checkCode (lcd_print s1.password (lcdEvents (Lcd.lcd_cmd 0xC0) (lcd_clear s1)))) := rfl

/-- What taking a key does to the entry buffer, the index, the loop flag and the success
LED, for an index between 0 and 4. -/
theorem onKey_spec (key : Char) (st : State) (h0 : 0 ≤ st.index) (h4 : st.index ≤ 4) :
    ∃ st2, onKey key st = some st2 ∧
      st2.password = (st.password.set st.index.toNat key).set (st.index + 1).toNat NUL ∧
      storesOf st2.log = storesOf st.log ++ [(st.index, key), (st.index + 1, NUL)] ∧
      (∀ e ∈ st.log, e ∈ st2.log) ∧
      st2.leds.led_ep1.gpio = st.leds.led_ep1.gpio ∧
      (st.index < 4 → st2.index = st.index + 1 ∧ st2.sentinelle = st.sentinelle ∧
        st2.leds.led_ep1 = st.leds.led_ep1) ∧
      (st.index = 4 → st2.index = 0 ∧
        (cstr st2.password = CODE → st2.sentinelle = 1 ∧ st2.leds.led_ep1.state = 1 ∧
          GEvent.led (Leds.LedEvent.setLevel st.leds.led_ep1.gpio 1) ∈ st2.log) ∧
        (cstr st2.password ≠ CODE → st2.sentinelle = st.sentinelle ∧
          st2.leds.led_ep1 = st.leds.led_ep1)) := by
  rw [onKey_eq, storeKey_spec key st h0 h4, Option.some_bind]
  generalize hs1 : ({ st with
        password := (st.password.set st.index.toNat key).set (st.index + 1).toNat NUL
        index := st.index + 1
        log := st.log ++ [GEvent.store st.index key, GEvent.store (st.index + 1) NUL] } : State)
      = s1
  have p1 : s1.password = (st.password.set st.index.toNat key).set (st.index + 1).toNat NUL := by
    rw [← hs1]
  have p2 : s1.index = st.index + 1 := by rw [← hs1]
  have p3 : s1.sentinelle = st.sentinelle := by rw [← hs1]
  have p4 : s1.leds = st.leds := by rw [← hs1]
  have p5 : storesOf s1.log = storesOf st.log ++ [(st.index, key), (st.index + 1, NUL)] := by
    rw [← hs1]; simp [storesOf_append, storesOf]
  have p6 : ∀ e ∈ st.log, e ∈ s1.log := fun e he => by rw [← hs1]; simp [he]
  have hsame : Same s1 (lcd_print s1.password (lcdEvents (Lcd.lcd_cmd 0xC0) (lcd_clear s1))) :=
    (same_lcd_clear s1).trans <| (same_lcdEvents _ _).trans (same_lcd_print _ _)
  generalize (lcd_print s1.password (lcdEvents (Lcd.lcd_cmd 0xC0) (lcd_clear s1))) = s2 at hsame
  obtain ⟨q1, q2, q3, q4, q5, q6⟩ := hsame
  by_cases h : st.index < 4
  · refine ⟨s2, checkCode_lt s2 (by omega), q1.trans p1, q5.trans p5,
      fun e he => q6 e (p6 e he), by rw [q4, p4], ?_, ?_⟩
    · intro _
      exact ⟨q2.trans p2, q3.trans p3, by rw [q4, p4]⟩
    · intro h'
      omega
  · have h5 : 5 ≤ s2.index := by omega
    by_cases hc : cstr s2.password = CODE
    · obtain ⟨s3, e0, e1, e2, e3, e4, e5, e6, e7⟩ := checkCode_right s2 h5 hc
      refine ⟨s3, e0, e1.trans (q1.trans p1), e5.trans (q5.trans p5),
        fun e he => e6 e (q6 e (p6 e he)), by rw [e4, q4, p4], fun h' => absurd h' h, ?_⟩
      intro _
      refine ⟨e2, ?_, ?_⟩
      · intro _
        refine ⟨e3, by rw [e4], ?_⟩
        rw [q4, p4] at e7
        exact e7
      · intro hne
        rw [e1] at hne
        exact absurd hc hne
    · obtain ⟨s3, e0, e1, e2, e3, e4, e5, e6⟩ := checkCode_wrong s2 h5 hc
      refine ⟨s3, e0, e1.trans (q1.trans p1), e5.trans (q5.trans p5),
        fun e he => e6 e (q6 e (p6 e he)), by rw [e4, q4, p4], fun h' => absurd h' h, ?_⟩
      intro _
      refine ⟨e2, ?_, ?_⟩
      · intro heq
        rw [e1] at heq
        exact absurd heq hc
      · intro _
        exact ⟨e3.trans (q3.trans p3), by rw [e4, q4, p4]⟩

theorem iteration_eq (button : Int) (key : Char) (st : State) :
    iteration button key st =
      (if key ≠ NUL then
        onKey key (if decide (button = 1) = true then
          leds_morse_sequence "b947d".toList
            (lcd_print "Entrez le code:".toList (lcdEvents (Lcd.lcd_cmd 0x80) st))
          else lcd_print "Entrez le code:".toList (lcdEvents (Lcd.lcd_cmd 0x80) st))
       else some (if decide (button = 1) = true then
          leds_morse_sequence "b947d".toList
            (lcd_print "Entrez le code:".toList (lcdEvents (Lcd.lcd_cmd 0x80) st))
          else lcd_print "Entrez le code:".toList (lcdEvents (Lcd.lcd_cmd 0x80) st))).bind
        (fun s => some (vTaskDelay 100 s)) := by
  simp only [iteration, lcd_set_cursor_row0, bind, Option.bind]
  split_ifs <;> rfl

theorem same_hint (button : Int) (st : State) :
    Same st (if decide (button = 1) = true then
          leds_morse_sequence "b947d".toList
            (lcd_print "Entrez le code:".toList (lcdEvents (Lcd.lcd_cmd 0x80) st))
          else lcd_print "Entrez le code:".toList (lcdEvents (Lcd.lcd_cmd 0x80) st)) := by
  have h := (same_lcdEvents (Lcd.lcd_cmd 0x80) st).trans (same_lcd_print "Entrez le code:".toList _)
  split_ifs
  · exact h.trans (same_morse _ _)
  · exact h

/-! ### Blocks of five keys -/

theorem block_length_le (ks : List Char) (n : Nat) : (block ks n).length ≤ ks.length := by
  simp only [block, List.length_take, List.length_drop]
  omega

theorem block_zero_append (b ks : List Char) (hb : b.length = 5) : block (b ++ ks) 0 = b := by
  simp [block, List.take_append_eq_append_take, hb]

theorem block_succ_append (b ks : List Char) (n : Nat) (hb : b.length = 5) :
    block (b ++ ks) (n + 1) = block ks n := by
  have h : 5 * (n + 1) = b.length + 5 * n := by omega
  simp only [block, h, List.drop_append]

theorem entryAfter_cons_lt (p ks : List Char) (k : Char) (h : (p ++ [k]).length < 5) :
    entryAfter p (k :: ks) = entryAfter (p ++ [k]) ks := by
  rw [entryAfter, if_pos h]

theorem entryAfter_cons_code (p ks : List Char) (k : Char) (h : ¬ (p ++ [k]).length < 5)
    (hc : p ++ [k] = CODE) : entryAfter p (k :: ks) = none := by
  rw [entryAfter, if_neg h, if_pos hc]

theorem entryAfter_cons_other (p ks : List Char) (k : Char) (h : ¬ (p ++ [k]).length < 5)
    (hc : p ++ [k] ≠ CODE) : entryAfter p (k :: ks) = entryAfter [] ks := by
  rw [entryAfter, if_neg h, if_neg hc]

theorem entryAfter_none_iff (p ks : List Char) (hp : p.length < 5) :
    entryAfter p ks = none ↔ ∃ n, block (p ++ ks) n = CODE := by
  induction ks generalizing p with
  | nil =>
    simp only [entryAfter, List.append_nil, false_iff, not_exists, reduceCtorEq]
    intro n h
    have := block_length_le p n
    rw [h] at this
    have h5 : CODE.length = 5 := rfl
    omega
  | cons k ks ih =>
    have happ : p ++ k :: ks = (p ++ [k]) ++ ks := by simp
    by_cases h : (p ++ [k]).length < 5
    · rw [entryAfter_cons_lt p ks k h, ih (p ++ [k]) h, happ]
    · have hb : (p ++ [k]).length = 5 := by
        simp only [List.length_append, List.length_singleton] at h ⊢
        omega
      by_cases hc : p ++ [k] = CODE
      · rw [entryAfter_cons_code p ks k h hc]
        simp only [true_iff]
        exact ⟨0, by rw [happ, block_zero_append _ _ hb, hc]⟩
      · rw [entryAfter_cons_other p ks k h hc, ih [] (by simp), happ]
        constructor
        · rintro ⟨n, hn⟩
          exact ⟨n + 1, by rw [block_succ_append _ _ _ hb]; simpa using hn⟩
        · rintro ⟨n, hn⟩
          cases n with
          | zero => rw [block_zero_append _ _ hb] at hn; exact absurd hn hc
          | succ n => rw [block_succ_append _ _ _ hb] at hn; exact ⟨n, by simpa using hn⟩

theorem entryAfter_some (p ks q : List Char) (hp : p.length < 5)
    (h : entryAfter p ks = some q) :
    q.length < 5 ∧ ∃ m, 5 * m + q.length = (p ++ ks).length ∧ q = (p ++ ks).drop (5 * m) := by
  induction ks generalizing p with
  | nil =>
    simp only [entryAfter, Option.some.injEq] at h
    subst h
    exact ⟨hp, 0, by simp, by simp⟩
  | cons k ks ih =>
    have happ : p ++ k :: ks = (p ++ [k]) ++ ks := by simp
    by_cases h5 : (p ++ [k]).length < 5
    · rw [entryAfter_cons_lt p ks k h5] at h
      rw [happ]
      exact ih (p ++ [k]) h5 h
    · have hb : (p ++ [k]).length = 5 := by
        simp only [List.length_append, List.length_singleton] at h5 ⊢
        omega
      by_cases hc : p ++ [k] = CODE
      · rw [entryAfter_cons_code p ks k h5 hc] at h
        cases h
      · rw [entryAfter_cons_other p ks k h5 hc] at h
        obtain ⟨hq, m, hm, hd⟩ := ih [] (by simp) h
        refine ⟨hq, m + 1, ?_, ?_⟩
        · rw [happ, List.length_append, hb]
          simp only [List.nil_append] at hm
          omega
        · have e : 5 * (m + 1) = (p ++ [k]).length + 5 * m := by omega
          rw [happ, e, List.drop_append]
          simpa using hd

/-! ### The loop -/

theorem set_at_length (p : List Char) (a k : Char) (r : List Char) :
    (p ++ a :: r).set p.length k = p ++ k :: r := by
  induction p with
  | nil => rfl
  | cons x p ih => simp [ih]

theorem stored (p rest : List Char) (k : Char) (hlen : p.length + rest.length = 6)
    (hp : p.length < 5) :
    ∃ r, ((p ++ rest).set p.length k).set (p.length + 1) NUL = (p ++ [k]) ++ NUL :: r ∧
      (p ++ [k]).length + (NUL :: r).length = 6 := by
  match rest, hlen with
  | [], h => simp at h; omega
  | [_], h => simp at h; omega
  | a :: b :: r, h =>
    refine ⟨r, ?_, ?_⟩
    · rw [set_at_length]
      have e : p ++ k :: b :: r = (p ++ [k]) ++ b :: r := by simp
      have e2 : p.length + 1 = (p ++ [k]).length := by simp
      rw [e, e2, set_at_length]
    · simp only [List.length_append, List.length_cons, List.length_nil] at h ⊢
      omega

theorem cstr_append (a r : List Char) (h : ∀ c ∈ a, c ≠ NUL) : cstr (a ++ NUL :: r) = a := by
  induction a with
  | nil => simp [cstr]
  | cons x a ih =>
    have hx : decide (x ≠ NUL) = true := decide_eq_true (h x (by simp))
    have := ih (fun c hc => h c (by simp [hc]))
    show List.takeWhile _ (x :: (a ++ NUL :: r)) = x :: a
    rw [List.takeWhile_cons, if_pos hx]
    exact congrArg (List.cons x) this

theorem loop_done (inputs : List (Int × Char)) (st : State) (h : st.sentinelle ≠ 0) :
    loop inputs st = some st := by
  cases inputs with
  | nil => rfl
  | cons x rest => obtain ⟨b, k⟩ := x; simp [loop, h]

theorem keysOf_cons_NUL (b : Int) (rest : List (Int × Char)) :
    keysOf ((b, NUL) :: rest) = keysOf rest := by
  simp [keysOf]

theorem keysOf_cons_key (b : Int) (k : Char) (rest : List (Int × Char)) (hk : k ≠ NUL) :
    keysOf ((b, k) :: rest) = k :: keysOf rest := by
  simp [keysOf, hk]

/-- One pass of the loop on the part of the state the claims are about, for an index
between 0 and 4. -/
theorem iteration_spec (button : Int) (key : Char) (st : State)
    (h0 : 0 ≤ st.index) (h4 : st.index ≤ 4) :
    ∃ st2, iteration button key st = some st2 ∧
      st2.leds.led_ep1.gpio = st.leds.led_ep1.gpio ∧ (∀ e ∈ st.log, e ∈ st2.log) ∧
      (key = NUL → st2.password = st.password ∧ st2.index = st.index ∧
        st2.sentinelle = st.sentinelle ∧ st2.leds.led_ep1 = st.leds.led_ep1 ∧
        storesOf st2.log = storesOf st.log) ∧
      (key ≠ NUL →
        st2.password = (st.password.set st.index.toNat key).set (st.index + 1).toNat NUL ∧
        storesOf st2.log = storesOf st.log ++ [(st.index, key), (st.index + 1, NUL)] ∧
        (st.index < 4 → st2.index = st.index + 1 ∧ st2.sentinelle = st.sentinelle ∧
          st2.leds.led_ep1 = st.leds.led_ep1) ∧
        (st.index = 4 → st2.index = 0 ∧
          (cstr st2.password = CODE → st2.sentinelle = 1 ∧ st2.leds.led_ep1.state = 1 ∧
            GEvent.led (Leds.LedEvent.setLevel st.leds.led_ep1.gpio 1) ∈ st2.log) ∧
          (cstr st2.password ≠ CODE → st2.sentinelle = st.sentinelle ∧
            st2.leds.led_ep1 = st.leds.led_ep1))) := by
  rw [iteration_eq]
  have hs := same_hint button st
  generalize (if decide (button = 1) = true then
          leds_morse_sequence "b947d".toList
            (lcd_print "Entrez le code:".toList (lcdEvents (Lcd.lcd_cmd 0x80) st))
          else lcd_print "Entrez le code:".toList (lcdEvents (Lcd.lcd_cmd 0x80) st)) = s0 at hs ⊢
  obtain ⟨q1, q2, q3, q4, q5, q6⟩ := hs
  by_cases hk : key = NUL
  · have hd := same_vTaskDelay 100 s0
    refine ⟨vTaskDelay 100 s0, by simp [hk], by rw [hd.2.2.2.1, q4],
      fun e he => hd.2.2.2.2.2 e (q6 e he), ?_, fun h => absurd hk h⟩
    intro _
    exact ⟨hd.1.trans q1, hd.2.1.trans q2, hd.2.2.1.trans q3, hd.2.2.2.1.trans q4,
      hd.2.2.2.2.1.trans q5⟩
  · obtain ⟨s1, e0, e1, e2, e3, e4, e5, e6⟩ := onKey_spec key s0 (by omega) (by omega)
    have hd := same_vTaskDelay 100 s1
    obtain ⟨d1, d2, d3, d4, d5, d6⟩ := hd
    rw [q1, q2, q5, q3, q4] at *
    refine ⟨vTaskDelay 100 s1, by simp [hk, e0], by rw [d4, e4],
      fun e he => d6 e (e3 e (q6 e he)), fun h => absurd h hk, ?_⟩
    intro _
    refine ⟨d1.trans e1, d5.trans e2, ?_, ?_⟩
    · intro hlt
      obtain ⟨a, b, c⟩ := e5 hlt
      exact ⟨d2.trans a, d3.trans b, d4.trans c⟩
    · intro heq
      obtain ⟨a, b, c⟩ := e6 heq
      refine ⟨d2.trans a, ?_, ?_⟩
      · intro hc
        rw [d1] at hc
        obtain ⟨x, y, z⟩ := b hc
        exact ⟨d3.trans x, by rw [d4]; exact y, d6 _ z⟩
      · intro hc
        rw [d1] at hc
        obtain ⟨x, y⟩ := c hc
        exact ⟨d3.trans x, d4.trans y⟩

theorem pending_length (st : State) (p : List Char) (hp : Pending st p) :
    st.password.length = 6 ∧ 0 ≤ st.index ∧ st.index ≤ 4 := by
  obtain ⟨_, hidx, hlen, ⟨r0, hpw, hr0⟩, _, _⟩ := hp
  refine ⟨by rw [hpw, List.length_append]; exact hr0, by omega, by omega⟩

/-- The loop against the expected entry: started at a pass with pending entry `p`, the loop
ends with the flag set, the code in the buffer and the success LED on when the keys
complete the code, and otherwise stands at a pass with the expected pending entry. Every
store it records is at an offset from 0 to 5. -/
theorem loop_spec (inputs : List (Int × Char)) (st : State) (p : List Char)
    (hp : Pending st p) :
    ∃ st2, loop inputs st = some st2 ∧ st2.password.length = 6 ∧
      0 ≤ st2.index ∧ st2.index ≤ 4 ∧
      (∀ x ∈ storesOf st2.log, x ∈ storesOf st.log ∨ (0 ≤ x.1 ∧ x.1 ≤ 5)) ∧
      (∀ e ∈ st.log, e ∈ st2.log) ∧
      (entryAfter p (keysOf inputs) = none →
        st2.sentinelle = 1 ∧ st2.index = 0 ∧ cstr st2.password = CODE ∧
        st2.leds.led_ep1.state = 1 ∧
        GEvent.led (Leds.LedEvent.setLevel Leds.LED_GPIO_EP1 1) ∈ st2.log) ∧
      (∀ q, entryAfter p (keysOf inputs) = some q → Pending st2 q) := by
  induction inputs generalizing st p with
  | nil =>
    obtain ⟨l1, l2, l3⟩ := pending_length st p hp
    refine ⟨st, rfl, l1, l2, l3, fun x hx => Or.inl hx, fun e he => he, ?_, ?_⟩
    · intro h; simp [keysOf, entryAfter] at h
    · intro q h
      simp only [keysOf, List.map_nil, List.filter_nil, entryAfter, Option.some.injEq] at h
      exact h ▸ hp
  | cons x rest ih =>
    obtain ⟨b, k⟩ := x
    obtain ⟨l1, l2, l3⟩ := pending_length st p hp
    obtain ⟨hs0, hidx, hlen, ⟨r0, hpw, hr0⟩, hnn, hgpio⟩ := hp
    obtain ⟨s1, hit, g1, m1, n1, k1⟩ := iteration_spec b k st l2 l3
    rw [loop, if_pos hs0, hit, Option.some_bind]
    by_cases hk : k = NUL
    · subst hk
      obtain ⟨a1, a2, a3, a4, a5⟩ := n1 rfl
      have hp1 : Pending s1 p :=
        ⟨a3.trans hs0, a2.trans hidx, hlen, ⟨r0, a1.trans hpw, hr0⟩, hnn, g1.trans hgpio⟩
      obtain ⟨st2, e0, e1, e2, e3, e4, e5, e6, e7⟩ := ih s1 p hp1
      rw [keysOf_cons_NUL]
      exact ⟨st2, e0, e1, e2, e3, fun x hx => by rw [← a5]; exact e4 x hx,
        fun e he => e5 e (m1 e he), e6, e7⟩
    · obtain ⟨b1, b2, b3, b4⟩ := k1 hk
      have t1 : st.index.toNat = p.length := by omega
      have t2 : (st.index + 1).toNat = p.length + 1 := by omega
      obtain ⟨r, hst, hrl⟩ := stored p r0 k hr0 hlen
      rw [hpw, t1, t2, hst] at b1
      have hnn1 : ∀ c ∈ p ++ [k], c ≠ NUL := by
        intro c hc
        rcases List.mem_append.mp hc with hc | hc
        · exact hnn c hc
        · rw [List.mem_singleton.mp hc]; exact hk
      have hstores : ∀ x ∈ storesOf s1.log, x ∈ storesOf st.log ∨ (0 ≤ x.1 ∧ x.1 ≤ 5) := by
        intro x hx
        rw [b2, List.mem_append] at hx
        rcases hx with hx | hx
        · exact Or.inl hx
        · right
          simp only [List.mem_cons, List.mem_singleton, List.not_mem_nil, or_false] at hx
          rcases hx with rfl | rfl
          · exact ⟨l2, by show st.index ≤ 5; omega⟩
          · exact ⟨by show 0 ≤ st.index + 1; omega, by show st.index + 1 ≤ 5; omega⟩
      rw [keysOf_cons_key b k rest hk]
      by_cases h4 : p.length < 4
      · obtain ⟨c1, c2, c3⟩ := b3 (by omega)
        have hlt : (p ++ [k]).length < 5 := by simp; omega
        have hp1 : Pending s1 (p ++ [k]) :=
          ⟨c2.trans hs0, by rw [c1, hidx]; simp, hlt, ⟨NUL :: r, b1, hrl⟩, hnn1,
            g1.trans hgpio⟩
        obtain ⟨st2, e0, e1, e2, e3, e4, e5, e6, e7⟩ := ih s1 (p ++ [k]) hp1
        rw [entryAfter_cons_lt p _ k hlt]
        refine ⟨st2, e0, e1, e2, e3, ?_, fun e he => e5 e (m1 e he), e6, e7⟩
        intro x hx
        rcases e4 x hx with h | h
        · exact hstores x h
        · exact Or.inr h
      · obtain ⟨c1, c2, c3⟩ := b4 (by omega)
        have hnlt : ¬ (p ++ [k]).length < 5 := by simp; omega
        have hcs : cstr s1.password = p ++ [k] := by rw [b1]; exact cstr_append _ _ hnn1
        by_cases hc : p ++ [k] = CODE
        · obtain ⟨d1, d2, d3⟩ := c2 (hcs.trans hc)
          rw [loop_done rest s1 (by rw [d1]; decide), entryAfter_cons_code p _ k hnlt hc]
          refine ⟨s1, rfl, ?_, by omega, by omega, hstores, m1, ?_, ?_⟩
          · rw [b1]
            simp only [List.length_append, List.length_cons, List.length_nil] at hrl ⊢
            omega
          · intro _
            exact ⟨d1, c1, hcs.trans hc, d2, hgpio ▸ d3⟩
          · intro q hq; cases hq
        · obtain ⟨d1, d2⟩ := c3 (by rw [hcs]; exact hc)
          have hp1 : Pending s1 [] :=
            ⟨d1.trans hs0, by rw [c1]; rfl, by decide,
              ⟨s1.password, rfl, by
                rw [b1]
                simp only [List.length_append, List.length_cons, List.length_nil] at hrl ⊢
                omega⟩, by simp, g1.trans hgpio⟩
          obtain ⟨st2, e0, e1, e2, e3, e4, e5, e6, e7⟩ := ih s1 [] hp1
          rw [entryAfter_cons_other p _ k hnlt hc]
          refine ⟨st2, e0, e1, e2, e3, ?_, fun e he => e5 e (m1 e he), e6, e7⟩
          intro x hx
          rcases e4 x hx with h | h
          · exact hstores x h
          · exact Or.inr h

theorem pending_start : Pending start [] :=
  ⟨rfl, rfl, by decide, ⟨List.replicate 6 NUL, rfl, rfl⟩, by simp, rfl⟩

theorem storesOf_start : storesOf start.log = [] := by
  simp [start, lcdEvents, storesOf_lcd, storesOf]

theorem launch_game_cases (inputs : List (Int × Char)) :
    ∃ st, launch_game inputs = some st ∧ st.password.length = 6 ∧
      0 ≤ st.index ∧ st.index ≤ 4 ∧
      (∀ x ∈ storesOf st.log, 0 ≤ x.1 ∧ x.1 ≤ 5) ∧
      ((∃ n, block (keysOf inputs) n = CODE) →
        st.sentinelle = 1 ∧ st.index = 0 ∧ cstr st.password = CODE ∧
        st.leds.led_ep1.state = 1 ∧
        GEvent.led (Leds.LedEvent.setLevel Leds.LED_GPIO_EP1 1) ∈ st.log) ∧
      ((¬ ∃ n, block (keysOf inputs) n = CODE) →
        ∃ q, Pending st q ∧ q.length = (keysOf inputs).length % 5 ∧
          q = (keysOf inputs).drop ((keysOf inputs).length - (keysOf inputs).length % 5)) := by
  obtain ⟨st, e0, e1, e2, e3, e4, _, e6, e7⟩ := loop_spec inputs start [] pending_start
  refine ⟨st, e0, e1, e2, e3, ?_, ?_, ?_⟩
  · intro x hx
    rcases e4 x hx with h | h
    · rw [storesOf_start] at h; cases h
    · exact h
  · intro h
    exact e6 ((entryAfter_none_iff [] _ (by decide)).mpr (by simpa using h))
  · intro h
    cases hq : entryAfter [] (keysOf inputs) with
    | none => exact absurd (by simpa using (entryAfter_none_iff [] _ (by decide)).mp hq) h
    | some q =>
      obtain ⟨hlt, m, hm, hd⟩ := entryAfter_some [] _ q (by decide) hq
      simp only [List.nil_append] at hm hd
      refine ⟨q, e7 q hq, by omega, ?_⟩
      have : (keysOf inputs).length - (keysOf inputs).length % 5 = 5 * m := by omega
      rw [this]
      exact hd

/-- C20: for every sequence of button levels and scan results the loop runs without a store
outside the buffer; at the start of every pass `0 <= index <= 4` and the buffer has its 6
bytes; every store recorded is at an offset from 0 to 5; and the two stores that take a
key succeed, advance `index` by one and leave a NUL at `password[index]`, the string in
the buffer being the keys of the current attempt. -/
theorem launch_game_buffer (inputs : List (Int × Char)) :
    ∃ st, launch_game inputs = some st ∧
      0 ≤ st.index ∧ st.index ≤ 4 ∧ st.password.length = 6 ∧
      (∀ x ∈ storesOf st.log, 0 ≤ x.1 ∧ x.1 ≤ 5) ∧
      (st.sentinelle = 0 → ∀ key : Char, ∃ st2, storeKey key st = some st2 ∧
        storesOf st2.log = storesOf st.log ++ [(st.index, key), (st.index + 1, NUL)] ∧
        st2.index = st.index + 1 ∧ st2.password.length = 6 ∧
        st2.password[st2.index.toNat]? = some NUL ∧
        (key ≠ NUL → cstr st2.password = st.password.take st.index.toNat ++ [key])) := by
  obtain ⟨st, e0, e1, e2, e3, e4, e5, e6⟩ := launch_game_cases inputs
  refine ⟨st, e0, e2, e3, e1, e4, ?_⟩
  intro hs key
  have hno : ¬ ∃ n, block (keysOf inputs) n = CODE := by
    intro h
    rw [(e5 h).1] at hs
    cases hs
  obtain ⟨q, ⟨_, hidx, hlen, ⟨r0, hpw, hr0⟩, hnn, _⟩, _, _⟩ := e6 hno
  have t1 : st.index.toNat = q.length := by omega
  have t2 : (st.index + 1).toNat = q.length + 1 := by omega
  obtain ⟨r, hst, hrl⟩ := stored q r0 key hr0 hlen
  refine ⟨_, storeKey_spec key st e2 e3, ?_, rfl, ?_, ?_, ?_⟩
  · simp [storesOf_append, storesOf]
  · show ((st.password.set st.index.toNat key).set (st.index + 1).toNat NUL).length = 6
    simp [e1]
  · show ((st.password.set st.index.toNat key).set (st.index + 1).toNat NUL)[
      (st.index + 1).toNat]? = some NUL
    rw [hpw, t1, t2, hst]
    have : q.length + 1 = (q ++ [key]).length := by simp
    rw [this, List.getElem?_append_right (le_refl _)]
    simp
  · intro hk
    show cstr ((st.password.set st.index.toNat key).set (st.index + 1).toNat NUL) = _
    rw [hpw, t1, t2, hst, List.take_left']
    · apply cstr_append
      intro c hc
      rcases List.mem_append.mp hc with hc | hc
      · exact hnn c hc
      · rw [List.mem_singleton.mp hc]; exact hk
    · rfl

/-- C20, instance: after `B`, `9`, `4` the index is 3; storing `7` writes offsets 3 and 4. -/
theorem launch_game_buffer_witness :
    ∃ st, launch_game [(0, 'B'), (0, '9'), (0, '4')] = some st ∧
      ∃ st2, storeKey '7' st = some st2 ∧ st2.index = st.index + 1 ∧
        st2.password[st2.index.toNat]? = some NUL ∧
        cstr st2.password = st.password.take st.index.toNat ++ ['7'] :=
  match launch_game_buffer [(0, 'B'), (0, '9'), (0, '4')] with
  | ⟨st, h0, _, _, _, _, h5⟩ =>
    match h5 (Option.some.inj ((congrArg (Option.map State.sentinelle) h0).symm.trans
        (by decide))) '7' with
    | ⟨st2, a, _, b, _, c, d⟩ => ⟨st, h0, st2, a, b, c, d (by decide)⟩

end Game

namespace Keypad

/-- C18: the key matrix has 4 rows of 4 characters; the 16 characters are pairwise
distinct and are exactly the digits, the letters `A` to `D`, `#` and `*`; no cell holds
NUL; and a character of the matrix determines its row and column. -/
theorem keys_matrix :
    keys.length = 4 ∧ (∀ row ∈ keys, row.length = 4) ∧
    keys.flatten.Nodup ∧ keys.flatten.length = 16 ∧
    (∀ c ∈ keys.flatten, c ∈ "0123456789ABCD#*".toList) ∧
    (∀ c ∈ "0123456789ABCD#*".toList, c ∈ keys.flatten) ∧
    NUL ∉ keys.flatten ∧
    (∀ r < 4, ∀ c < 4, keyAt r c ∈ keys.flatten ∧ keyAt r c ≠ NUL) ∧
    (∀ r < 4, ∀ c < 4, ∀ r2 < 4, ∀ c2 < 4, keyAt r c = keyAt r2 c2 → r = r2 ∧ c = c2) := by
  refine ⟨by decide, by decide, by decide, by decide, by decide, by decide, by decide,
    by decide, ?_⟩
  intro r hr c hc r2 hr2 c2 hc2 h
  exact keyAt_injective r c r2 c2 hr hc hr2 hc2 h

end Keypad

namespace Lcd

/-! ### The command byte of `lcd_set_cursor` -/

theorem testBit_128 (i : Nat) : Nat.testBit 128 i = decide (7 = i) := by
  have h : (128 : Nat) = 2 ^ 7 := rfl
  rw [h, Nat.testBit_two_pow]

theorem or_128_mod (n : Nat) : (128 ||| n) % 256 = 128 + n % 128 := by
  have h1 : (256 : Nat) = 2 ^ 8 := rfl
  have h2 : (128 : Nat) = 2 ^ 7 := rfl
  have hlt : n % 128 < 2 ^ 7 := by omega
  have hor : ∀ m < 128, 128 + m = 128 ||| m := by decide
  have e : 128 + n % 128 = 128 ||| (n % 2 ^ 7) := hor (n % 128) (by omega)
  rw [e, h1]
  apply Nat.eq_of_testBit_eq
  intro i
  simp only [Nat.testBit_mod_two_pow, Nat.testBit_or, testBit_128]
  by_cases h7 : 7 = i
  · subst h7; simp
  · by_cases h8 : i < 7
    · have : i < 8 := by omega
      simp [h7, h8, this]
    · have : ¬ i < 8 := by omega
      simp [h7, h8, this]

theorem ldiff_128_mod (n : Nat) : Nat.ldiff n 128 % 256 = n % 128 := by
  have h1 : (256 : Nat) = 2 ^ 8 := rfl
  have h2 : (128 : Nat) = 2 ^ 7 := rfl
  rw [h1]
  conv_rhs => rw [h2]
  apply Nat.eq_of_testBit_eq
  intro i
  simp only [Nat.testBit_mod_two_pow, Nat.testBit_ldiff, testBit_128]
  by_cases h7 : 7 = i
  · subst h7; simp
  · by_cases h8 : i < 7
    · have : i < 8 := by omega
      simp [h7, h8, this]
    · have : ¬ i < 8 := by omega
      simp [h7, h8, this]

/-- The command byte of a set-address: bit 7, and the low seven bits of the address. -/
theorem lor_byte (x : Int) : (Int.lor 0x80 x % 256).toNat = 128 + (x % 128).toNat := by
  cases x with
  | ofNat n =>
    have h : Int.lor 0x80 (Int.ofNat n) = ((128 ||| n : Nat) : Int) := rfl
    rw [h]
    have := or_128_mod n
    simp only [Int.ofNat_eq_coe]
    omega
  | negSucc n =>
    have h : Int.lor 0x80 (Int.negSucc n) = Int.negSucc (Nat.ldiff n 128) := rfl
    rw [h]
    have := ldiff_128_mod n
    simp only [Int.negSucc_eq]
    omega

theorem byte_facts : ∀ r < 128, (128 + r) &&& 0x80 = 0x80 ∧ (128 + r) % 128 = r ∧
    ∀ cmd < 128, 128 + r ≠ cmd := by
  intro r hr
  have h : ∀ r < 128, (128 + r) &&& 0x80 = 0x80 := by decide
  exact ⟨h r hr, by omega, fun cmd hc => by omega⟩

/-- C21: for `row` 0 or 1 and every `col`, `lcd_set_cursor` issues the command byte
`(0x80 | (col + offsets[row])) mod 256`; bit 7 of that byte is set, so it is a set-address
command and no command below 0x80 (clear 0x01, function-set 0x28, ...); its low seven
bits are `(col + offsets[row]) mod 128`; it reaches the controller as that one command,
which loads the address counter with those seven bits. The byte is the same when the
`int` addition wraps at 32 bits. -/
theorem lcd_set_cursor_command (row col : Int) (hrow : row = 0 ∨ row = 1) :
    ∃ c, lcd_set_cursor row col = some (lcd_cmd c) ∧
      c = (Int.lor 0x80 (col + (offsets.getD row.toNat 0 : Nat)) % 256).toNat ∧
      c = (Int.lor 0x80 (wrapInt (col + (offsets.getD row.toNat 0 : Nat))) % 256).toNat ∧
      c < 256 ∧ c &&& 0x80 = 0x80 ∧
      c % 128 = ((col + (offsets.getD row.toNat 0 : Nat)) % 128).toNat ∧
      (∀ cmd < 0x80, c ≠ cmd) ∧ c ≠ 0x01 ∧ c ≠ 0x28 ∧
      decode (writes (lcd_cmd c)) = [(false, c)] ∧
      (∀ d : Display, d.exec (false, c) = { d with addr := c % 128 }) := by
  have hset : lcd_set_cursor row col =
      some (lcd_cmd (Int.lor 0x80 (col + (offsets.getD row.toNat 0 : Nat)) % 256).toNat) := by
    rcases hrow with rfl | rfl <;> rfl
  have hb := lor_byte (col + (offsets.getD row.toNat 0 : Nat))
  have hr : ((col + (offsets.getD row.toNat 0 : Nat)) % 128).toNat < 128 := by omega
  obtain ⟨f1, f2, f3⟩ := byte_facts _ hr
  rw [← hb] at f1 f2 f3
  have hlt : (Int.lor 0x80 (col + (offsets.getD row.toNat 0 : Nat)) % 256).toNat < 256 := by
    rw [hb]; omega
  have hge : 128 ≤ (Int.lor 0x80 (col + (offsets.getD row.toNat 0 : Nat)) % 256).toNat := by
    rw [hb]; omega
  have hw : (Int.lor 0x80 (col + (offsets.getD row.toNat 0 : Nat)) % 256).toNat =
      (Int.lor 0x80 (wrapInt (col + (offsets.getD row.toNat 0 : Nat))) % 256).toNat := by
    rw [hb, lor_byte]
    unfold wrapInt
    omega
  refine ⟨_, hset, rfl, hw, hlt, f1, f2, f3, f3 1 (by decide), f3 0x28 (by decide), ?_, ?_⟩
  · have := decode_send_append _ 0 hlt (by decide) []
    rw [List.append_nil] at this
    rw [writes_cmd, Nat.mod_eq_of_lt hlt, this]
    rfl
  · intro d
    have hne := f3 1 (by decide)
    generalize (Int.lor 0x80 (col + (offsets.getD row.toNat 0 : Nat)) % 256).toNat = c at hne hge hlt
    have e : c - 128 = c % 128 := by omega
    show (if c = 1 then Display.blank else if 128 ≤ c then { d with addr := c - 128 } else d) = _
    rw [if_neg hne, if_pos hge, e]

/-- C21, instance: column 200 on row 0 gives the byte 0xC8, the address 0x48 of row 1,
column 8; column -1 on row 1 gives 0xBF, the address 0x3F. -/
theorem lcd_set_cursor_command_witness :
    (∃ c, lcd_set_cursor 0 200 = some (lcd_cmd c) ∧ c = 0xC8 ∧ c % 128 = cellAddr 1 8) ∧
    (∃ c, lcd_set_cursor 1 (-1) = some (lcd_cmd c) ∧ c = 0xBF ∧ c % 128 = 0x3F) :=
  ⟨match lcd_set_cursor_command 0 200 (Or.inl rfl) with
    | ⟨c, h0, h1, _⟩ => ⟨c, h0, h1.trans (by decide), by rw [h1]; decide⟩,
   match lcd_set_cursor_command 1 (-1) (Or.inr rfl) with
    | ⟨c, h0, h1, _⟩ => ⟨c, h0, h1.trans (by decide), by rw [h1]; decide⟩⟩

end Lcd
namespace Leds

/-! ### On and off events -/

theorem levels_append (a b : List LedEvent) : levels (a ++ b) = levels a ++ levels b := by
  induction a with
  | nil => rfl
  | cons e a ih => cases e <;> simp [levels, ih]

theorem onOff_succ (n : Nat) :
    (List.replicate (n + 1) [1, 0]).flatten = 1 :: 0 :: (List.replicate n [1, 0]).flatten := by
  simp [List.replicate_succ]

theorem onOff_add (a b : Nat) :
    (List.replicate (a + b) [1, 0]).flatten =
      (List.replicate a [1, 0]).flatten ++ (List.replicate b [1, 0]).flatten := by
  rw [List.replicate_add, List.flatten_append]

theorem onOff_count (n : Nat) :
    (List.replicate n [1, 0]).flatten.count 1 = n ∧
    (List.replicate n [1, 0]).flatten.count 0 = n := by
  induction n with
  | zero => simp
  | succ n ih =>
    rw [onOff_succ]
    simp [List.count_cons, ih.1, ih.2]

theorem onOff_last (n : Nat) (h : n ≠ 0) :
    (List.replicate n [1, 0]).flatten.getLast? = some 0 := by
  induction n with
  | zero => exact absurd rfl h
  | succ n ih =>
    rw [onOff_succ]
    by_cases hn : n = 0
    · subst hn; rfl
    · have := ih hn
      cases hl : (List.replicate n [1, 0]).flatten with
      | nil => rw [hl] at this; cases this
      | cons x xs =>
        rw [hl] at this
        simpa [List.getLast?_cons_cons] using this

theorem playPattern_levels (led : Led) (p : List Char) :
    levels (playPattern led p).2 = (List.replicate p.length [1, 0]).flatten := by
  induction p generalizing led with
  | nil => rfl
  | cons s p ih =>
    rw [List.length_cons, onOff_succ]
    simp [playPattern, led_on, led_off, levels, ih]

theorem playPattern_pins (led : Led) (p : List Char) :
    ∀ g l, LedEvent.setLevel g l ∈ (playPattern led p).2 → g = led.gpio := by
  induction p generalizing led with
  | nil => simp [playPattern]
  | cons s p ih =>
    intro g l h
    simp only [playPattern, led_on, led_off, List.mem_append, List.mem_singleton,
      List.mem_cons, List.not_mem_nil, or_false] at h
    rcases h with (((h | h) | h) | h) | h
    all_goals first
      | exact ih ⟨led.gpio, 0⟩ g l h
      | (cases h; rfl)
      | cases h

theorem playPattern_led (led : Led) (p : List Char) (hp : p ≠ []) :
    (playPattern led p).1 = ⟨led.gpio, 0⟩ := by
  induction p generalizing led with
  | nil => exact absurd rfl hp
  | cons s p ih =>
    by_cases h : p = []
    · subst h; rfl
    · have := ih (led_off (led_on led).1).1 h
      simpa [playPattern, led_on, led_off] using this

theorem pattern_nonempty : ∀ e ∈ morse_table, e.pattern.toList ≠ [] := by decide

theorem patternOf_ne_nil (c : Char) (p : List Char) (hp : patternOf c = some p) : p ≠ [] := by
  unfold patternOf at hp
  cases hf : morse_table.find? (fun e => e.letter = toupper c) with
  | none => rw [hf] at hp; cases hp
  | some e =>
    rw [hf] at hp
    have hp2 := Option.some.inj hp
    subst hp2
    exact pattern_nonempty e (List.mem_of_find?_eq_some hf)

theorem message_NUL (rest : List Char) : message (Char.ofNat 0 :: rest) = [] := by
  simp [message]

theorem message_cons (c : Char) (rest : List Char) (h : c ≠ Char.ofNat 0) :
    message (c :: rest) = c :: message rest := by
  simp [message, List.takeWhile_cons, h]

/-- The level writes of `morse_flash`: one on and one off per symbol of the message, all on
the pin of the LED; and the LED object afterwards. -/
theorem morse_flash_levels (led : Led) (m : List Char) :
    levels (morse_flash led m).2 =
      (List.replicate (symbolsOf (message m)).length [1, 0]).flatten ∧
    (∀ g l, LedEvent.setLevel g l ∈ (morse_flash led m).2 → g = led.gpio) ∧
    (morse_flash led m).1 =
      (if symbolsOf (message m) = [] then led else ⟨led.gpio, 0⟩) := by
  induction m generalizing led with
  | nil => exact ⟨rfl, by simp [morse_flash], rfl⟩
  | cons c m ih =>
    by_cases h0 : c = Char.ofNat 0
    · subst h0
      rw [morse_flash_NUL, message_NUL]
      exact ⟨rfl, by simp, rfl⟩
    · rw [message_cons c m h0, symbolsOf_cons]
      by_cases hs : c = ' '
      · subst hs
        obtain ⟨i1, i2, i3⟩ := ih led
        rw [morse_flash_space, patternOf_space]
        refine ⟨by simpa [levels] using i1, ?_, by simpa using i3⟩
        intro g l h
        simp only [List.mem_cons] at h
        rcases h with h | h
        · cases h
        · exact i2 g l h
      · cases hp : patternOf c with
        | none =>
          rw [morse_flash_skip led c m h0 hs hp]
          simpa using ih led
        | some p =>
          have hne := patternOf_ne_nil c p hp
          have hled := playPattern_led led p hne
          obtain ⟨i1, i2, i3⟩ := ih (playPattern led p).1
          rw [morse_flash_letter led c m p hp]
          refine ⟨?_, ?_, ?_⟩
          · simp only [levels_append, playPattern_levels, i1, Option.getD_some,
              List.length_append, onOff_add, levels, List.nil_append, List.append_nil]
          · intro g l h
            simp only [List.mem_append, List.mem_singleton] at h
            rcases h with (h | h) | h
            · exact playPattern_pins led p g l h
            · cases h
            · rw [i2 g l h, hled]
          · have hne2 : (some p).getD [] ++ symbolsOf (message m) ≠ [] := by
              simp [hne]
            rw [if_neg hne2, i3, hled]
            split_ifs <;> rfl

theorem symbolsOf_ne_nil (l : List Char) (c : Char) (hc : c ∈ l) (hs : supported c = true) :
    symbolsOf l ≠ [] := by
  induction l with
  | nil => cases hc
  | cons x l ih =>
    rw [symbolsOf_cons]
    rcases List.mem_cons.mp hc with rfl | h
    · unfold supported at hs
      cases hp : patternOf c with
      | none => rw [hp] at hs; cases hs
      | some p => simp [patternOf_ne_nil c p hp]
    · have := ih h
      simp [this]

/-- C22: for every message the levels `morse_flash` writes are 1, 0, 1, 0, ... : one on and
one off per symbol played, starting with on and ending with off, all on the pin of the LED,
so as many on as off events; `led_on` and `led_off` record in `state` the level they
write; after `morse_flash` the recorded state is the last level written (the state before,
if nothing was written), and it is 0 whenever the message holds a supported character. -/
theorem morse_flash_alternates (led : Led) (m : List Char) :
    levels (morse_flash led m).2 =
      (List.replicate (symbolsOf (message m)).length [1, 0]).flatten ∧
    (levels (morse_flash led m).2).count 1 = (levels (morse_flash led m).2).count 0 ∧
    (∀ g l, LedEvent.setLevel g l ∈ (morse_flash led m).2 → g = led.gpio) ∧
    ((led_on led).1.state = 1 ∧ (led_on led).2 = [LedEvent.setLevel led.gpio 1] ∧
      (led_off led).1.state = 0 ∧ (led_off led).2 = [LedEvent.setLevel led.gpio 0]) ∧
    (morse_flash led m).1.gpio = led.gpio ∧
    (morse_flash led m).1.state = ((levels (morse_flash led m).2).getLast?).getD led.state ∧
    ((∃ c ∈ message m, supported c = true) → (morse_flash led m).1.state = 0) := by
  obtain ⟨h1, h2, h3⟩ := morse_flash_levels led m
  obtain ⟨c1, c0⟩ := onOff_count (symbolsOf (message m)).length
  refine ⟨h1, by rw [h1, c1, c0], h2, ⟨rfl, rfl, rfl, rfl⟩, ?_, ?_, ?_⟩
  · rw [h3]; split_ifs <;> rfl
  · rw [h3, h1]
    by_cases hn : symbolsOf (message m) = []
    · rw [if_pos hn, hn]; rfl
    · rw [if_neg hn, onOff_last _ (by simpa using hn)]; rfl
  · rintro ⟨c, hc, hs⟩
    rw [h3, if_neg (symbolsOf_ne_nil _ c hc hs)]

/-- C22, instance: `SOS` on an LED that was left on. -/
theorem morse_flash_alternates_witness :
    (morse_flash ⟨LED_GPIO_EP2, 1⟩ "SOS".toList).1.state = 0 :=
  (morse_flash_alternates ⟨LED_GPIO_EP2, 1⟩ "SOS".toList).2.2.2.2.2.2
    ⟨'S', by decide, by decide⟩

end Leds
namespace Game

/-! ### The hint and the code -/

theorem hint_pulses (bank : Leds.LedBank) :
    Leds.pulses (Leds.leds_morse_sequence "b947d".toList bank).2 =
      (Leds.symbolsOf "b947d".toList).map (fun s => if s = '.' then Leds.DOT else Leds.DASH) :=
  Leds.pulses_morse_flash bank.led_ep2 "b947d".toList (by decide)

theorem hint_pass (st : State) :
    iteration 1 NUL st = some (vTaskDelay 100 (leds_morse_sequence "b947d".toList
      (lcd_print "Entrez le code:".toList (lcdEvents (Lcd.lcd_cmd 0x80) st)))) := by
  rw [iteration_eq]
  simp

theorem code_scanned : ∀ c ∈ CODE,
    Keypad.rowMajorFirstKey (fun r col => decide (Keypad.keyAt r col = c)) [0, 1, 2, 3] = c := by
  decide

/-- C23: the pass of the loop taken with the button pressed plays the message `b947d`;
upper-cased, as `morse_flash` reads it, that message is the expected code `B947D`; each of
its five characters has an entry in the Morse table, with patterns of 4, 5, 5, 5 and 3
symbols, so that the hint is 22 pulses on any LED bank; every character of the code is a
key of the keypad matrix, holding that key alone makes `keypad_scan` return it, and the
game run on the five keys of the code ends with the loop flag set and the success LED
on. -/
theorem launch_game_hint :
    (∀ st : State, iteration 1 NUL st = some (vTaskDelay 100
      (leds_morse_sequence "b947d".toList
        (lcd_print "Entrez le code:".toList (lcdEvents (Lcd.lcd_cmd 0x80) st))))) ∧
    "b947d".toList.map Leds.toupper = CODE ∧
    (∀ c ∈ "b947d".toList, Leds.supported c = true) ∧
    ("b947d".toList.filter Leds.supported).length = 5 ∧
    "b947d".toList.map (fun c => ((Leds.patternOf c).getD []).length) = [4, 5, 5, 5, 3] ∧
    (Leds.symbolsOf "b947d".toList).length = 22 ∧
    (∀ bank : Leds.LedBank,
      (Leds.pulses (Leds.leds_morse_sequence "b947d".toList bank).2).length = 22) ∧
    CODE = [Keypad.keyAt 0 2, Keypad.keyAt 1 1, Keypad.keyAt 3 3, Keypad.keyAt 0 3,
      Keypad.keyAt 2 2] ∧
    (∀ c ∈ CODE, c ∈ Keypad.keys.flatten ∧ c ≠ NUL) ∧
    (∀ c ∈ CODE, (Keypad.keypad_scan
      (Keypad.steadyInputs (fun r col => decide (Keypad.keyAt r col = c))) Keypad.idle).val = c) ∧
    (∃ st, launch_game (CODE.map (fun c => ((0 : Int), c))) = some st ∧ st.sentinelle = 1 ∧
      cstr st.password = CODE ∧ st.leds.led_ep1.state = 1) := by
  refine ⟨hint_pass, by decide, by decide, by decide, by decide, by decide, ?_, by decide,
    by decide, ?_, ?_⟩
  · intro bank
    rw [hint_pulses, List.length_map]
    decide
  · intro c hc
    have h := Keypad.scanRows_steady (fun r col => decide (Keypad.keyAt r col = c))
      [0, 1, 2, 3] Keypad.idle (by decide) (by decide)
    exact h.trans (code_scanned c hc)
  · obtain ⟨st, e0, _, _, _, _, e5, _⟩ := launch_game_cases (CODE.map (fun c => ((0 : Int), c)))
    obtain ⟨a1, _, a3, a4, _⟩ := e5 ⟨0, by decide⟩
    exact ⟨st, e0, a1, a3, a4⟩

end Game
namespace Leds

/-! ### Pin levels -/

theorem pinLevels_append (lv : Nat → Nat) (a b : List LedEvent) :
    pinLevels lv (a ++ b) = pinLevels (pinLevels lv a) b := by
  induction a generalizing lv with
  | nil => rfl
  | cons e a ih => cases e <;> simp [pinLevels, ih]

theorem pinLevels_other (lv : Nat → Nat) (es : List LedEvent) (p : Nat)
    (h : ∀ g l, LedEvent.setLevel g l ∈ es → g ≠ p) : pinLevels lv es p = lv p := by
  induction es generalizing lv with
  | nil => rfl
  | cons e es ih =>
    have h2 : ∀ g l, LedEvent.setLevel g l ∈ es → g ≠ p :=
      fun g l hm => h g l (List.mem_cons_of_mem _ hm)
    cases e with
    | setLevel g l =>
      have hg : p ≠ g := Ne.symm (h g l (List.mem_cons_self _ _))
      simp only [pinLevels]
      rw [ih _ h2, if_neg hg]
    | delayMs ms =>
      simp only [pinLevels]
      exact ih _ h2

theorem sequence_pins (message : List Char) (bank : LedBank) :
    ∀ g l, LedEvent.setLevel g l ∈ (leds_morse_sequence message bank).2 →
      g = bank.led_ep2.gpio :=
  (morse_flash_levels bank.led_ep2 message).2.1

theorem sequence_gpio (message : List Char) (bank : LedBank) :
    (leds_morse_sequence message bank).1.led_ep2.gpio = bank.led_ep2.gpio := by
  show (morse_flash bank.led_ep2 message).1.gpio = bank.led_ep2.gpio
  rw [(morse_flash_levels bank.led_ep2 message).2.2]
  split_ifs <;> rfl

end Leds

namespace Game

/-! ### The indicators during the game -/

theorem ledsOf_append (a b : List GEvent) : ledsOf (a ++ b) = ledsOf a ++ ledsOf b := by
  induction a with
  | nil => rfl
  | cons e a ih => cases e <;> simp [ledsOf, ih]

theorem ledsOf_lcd (es : List Lcd.LcdEvent) : ledsOf (es.map GEvent.lcd) = [] := by
  induction es with
  | nil => rfl
  | cons e es ih => simpa [ledsOf] using ih

theorem ledsOf_led (es : List Leds.LedEvent) : ledsOf (es.map GEvent.led) = es := by
  induction es with
  | nil => rfl
  | cons e es ih => simpa [ledsOf] using ih

theorem view_lcdEvents (es : List Lcd.LcdEvent) (st : State) :
    ledView (lcdEvents es st) = ledView st := by
  simp [ledView, lcdEvents, ledsOf_append, ledsOf_lcd]

theorem view_vTaskDelay (ms : Nat) (st : State) : ledView (vTaskDelay ms st) = ledView st := by
  simp [ledView, vTaskDelay, ledsOf_append, ledsOf]

theorem view_lcd_print (s : List Char) (st : State) : ledView (lcd_print s st) = ledView st :=
  view_lcdEvents _ st

theorem view_lcd_clear (st : State) : ledView (lcd_clear st) = ledView st :=
  view_lcdEvents _ st

theorem view_store (i : Int) (c : Char) (st s : State) (h : store i c st = some s) :
    ledView s = ledView st := by
  unfold store at h
  split_ifs at h
  cases h
  simp [ledView, ledsOf_append, ledsOf]

theorem view_storeKey (key : Char) (st s : State) (h : storeKey key st = some s) :
    ledView s = ledView st := by
  simp only [storeKey, bind, Option.bind] at h
  cases h1 : store st.index key st with
  | none => rw [h1] at h; cases h
  | some s1 =>
    rw [h1] at h
    exact (view_store _ _ _ s h).trans (view_store _ _ _ s1 h1)

theorem dark_congr (lv : Nat → Nat) (a b : State) (h : ledView a = ledView b)
    (hd : Dark lv b) : Dark lv a := by
  have h1 : a.leds = b.leds := congrArg Prod.fst h
  have h2 : ledsOf a.log = ledsOf b.log := congrArg (fun v => v.2.1) h
  unfold Dark
  rw [h1, h2]
  exact hd

/-- The Morse hint leaves both indicators dark and the loop flag as it is. -/
theorem dark_morse (lv : Nat → Nat) (m : List Char) (st : State) (hd : Dark lv st) :
    Dark lv (leds_morse_sequence m st) := by
  obtain ⟨d1, d2, d3, d4, d5⟩ := hd
  have hp := Leds.sequence_pins m st.leds
  have hlog : ledsOf (leds_morse_sequence m st).log =
      ledsOf st.log ++ (Leds.leds_morse_sequence m st.leds).2 := by
    simp [leds_morse_sequence, ledEvents, ledsOf_append, ledsOf_led]
  refine ⟨d1, d2, (Leds.sequence_gpio m st.leds).trans d3, ?_, ?_⟩
  · rw [hlog, Leds.pinLevels_append, Leds.pinLevels_other _ _ _ ?_, d4]
    intro g l h
    rw [hp g l h, d3]
    decide
  · rw [hlog, Leds.pinLevels_append, Leds.pinLevels_other _ _ _ ?_, d5]
    intro g l h
    rw [hp g l h, d3]
    decide

theorem failure_eq (st : State) :
    failure st = some (lcd_clear (led_off_err (vTaskDelay 1000 (lcd_print "Nope!".toList
      (lcdEvents (Lcd.lcd_cmd 0x80) (vTaskDelay 500 (led_on_err st))))))) := by
  simp only [failure, lcd_set_cursor_row0, bind, Option.bind]

theorem view_led_on_err (st : State) :
    ledView (led_on_err st) =
      ({ st.leds with led_err := ⟨st.leds.led_err.gpio, 1⟩ },
        ledsOf st.log ++ [Leds.LedEvent.setLevel st.leds.led_err.gpio 1], st.sentinelle) := by
  simp [ledView, led_on_err, ledEvents, ledsOf_append, ledsOf, Leds.led_on]

theorem view_led_off_err (st : State) :
    ledView (led_off_err st) =
      ({ st.leds with led_err := ⟨st.leds.led_err.gpio, 0⟩ },
        ledsOf st.log ++ [Leds.LedEvent.setLevel st.leds.led_err.gpio 0], st.sentinelle) := by
  simp [ledView, led_off_err, ledEvents, ledsOf_append, ledsOf, Leds.led_off]

/-- The failure branch lights the error LED and puts it out again: the indicators are dark
after it as they were before it. -/
theorem dark_failure (lv : Nat → Nat) (st : State) (hd : Dark lv st) :
    ∃ s, failure st = some s ∧ Dark lv s ∧ s.sentinelle = st.sentinelle := by
  refine ⟨_, failure_eq st, ?_, ?_⟩
  · obtain ⟨d1, d2, d3, d4, d5⟩ := hd
    have v1 := view_led_on_err st
    have v2 : ledView (vTaskDelay 1000 (lcd_print "Nope!".toList
        (lcdEvents (Lcd.lcd_cmd 0x80) (vTaskDelay 500 (led_on_err st))))) =
        ledView (led_on_err st) :=
      (view_vTaskDelay _ _).trans <| (view_lcd_print _ _).trans <|
        (view_lcdEvents _ _).trans (view_vTaskDelay _ _)
    generalize led_on_err st = a at v1 v2
    generalize (vTaskDelay 1000 (lcd_print "Nope!".toList
        (lcdEvents (Lcd.lcd_cmd 0x80) (vTaskDelay 500 a)))) = b at v2
    have v3 := view_led_off_err b
    have v4 := view_lcd_clear (led_off_err b)
    generalize lcd_clear (led_off_err b) = c at v4
    generalize led_off_err b = b2 at v3 v4
    have w := v2.trans v1
    have b1 : b.leds = { st.leds with led_err := ⟨st.leds.led_err.gpio, 1⟩ } :=
      congrArg Prod.fst w
    have b3 : ledsOf b.log = ledsOf st.log ++ [Leds.LedEvent.setLevel st.leds.led_err.gpio 1] :=
      congrArg (fun v => v.2.1) w
    have x := v4.trans v3
    have c1 : c.leds = { b.leds with led_err := ⟨b.leds.led_err.gpio, 0⟩ } := congrArg Prod.fst x
    have c3 : ledsOf c.log = ledsOf b.log ++ [Leds.LedEvent.setLevel b.leds.led_err.gpio 0] :=
      congrArg (fun v => v.2.1) x
    unfold Dark
    rw [c1, c3, b1, b3]
    refine ⟨d1, ?_, d3, ?_, ?_⟩
    · simp [d2]
    · simp only [Leds.pinLevels_append, Leds.pinLevels, d2]
      rw [if_neg (by decide), if_neg (by decide)]
      exact d4
    · simp only [Leds.pinLevels_append, Leds.pinLevels, d2]
      exact if_pos trivial
  · rfl

theorem dark_checkCode (lv : Nat → Nat) (st s : State) (h : checkCode st = some s)
    (hd : Dark lv st) (hs : s.sentinelle = 0) : Dark lv s := by
  by_cases hi : st.index < 5
  · rw [checkCode_lt st hi] at h
    cases h
    exact hd
  · have h5 : 5 ≤ st.index := not_lt.mp hi
    by_cases hc : cstr st.password = CODE
    · obtain ⟨s2, e0, _, _, e3, _⟩ := checkCode_right st h5 hc
      rw [e0] at h
      cases h
      rw [e3] at hs
      cases hs
    · obtain ⟨f, hf, hdf, _⟩ := dark_failure lv st hd
      have e : checkCode st = some { vTaskDelay 1000 f with index := 0 } := by
        simp [checkCode, h5, hc, hf, bind, Option.bind]
      rw [e] at h
      cases h
      exact dark_congr lv _ f (view_vTaskDelay 1000 f) hdf

theorem dark_onKey (lv : Nat → Nat) (key : Char) (st s : State) (h : onKey key st = some s)
    (hd : Dark lv st) (hs : s.sentinelle = 0) : Dark lv s := by
  rw [onKey_eq] at h
  cases h1 : storeKey key st with
  | none => rw [h1] at h; cases h
  | some s1 =>
    rw [h1, Option.some_bind] at h
    have v : ledView (lcd_print s1.password (lcdEvents (Lcd.lcd_cmd 0xC0) (lcd_clear s1))) =
        ledView st :=
      (view_lcd_print _ _).trans <| (view_lcdEvents _ _).trans <| (view_lcd_clear _).trans
        (view_storeKey key st s1 h1)
    exact dark_checkCode lv _ s h (dark_congr lv _ st v hd) hs

theorem dark_hint (lv : Nat → Nat) (button : Int) (st : State) (hd : Dark lv st) :
    Dark lv (if decide (button = 1) = true then
          leds_morse_sequence "b947d".toList
            (lcd_print "Entrez le code:".toList (lcdEvents (Lcd.lcd_cmd 0x80) st))
          else lcd_print "Entrez le code:".toList (lcdEvents (Lcd.lcd_cmd 0x80) st)) := by
  have h0 : Dark lv (lcd_print "Entrez le code:".toList (lcdEvents (Lcd.lcd_cmd 0x80) st)) :=
    dark_congr lv _ st ((view_lcd_print _ _).trans (view_lcdEvents _ _)) hd
  split_ifs
  · exact dark_morse lv _ _ h0
  · exact h0

theorem dark_iteration (lv : Nat → Nat) (button : Int) (key : Char) (st s : State)
    (h : iteration button key st = some s) (hd : Dark lv st) (hs : s.sentinelle = 0) :
    Dark lv s := by
  rw [iteration_eq] at h
  have h0 := dark_hint lv button st hd
  generalize (if decide (button = 1) = true then
          leds_morse_sequence "b947d".toList
            (lcd_print "Entrez le code:".toList (lcdEvents (Lcd.lcd_cmd 0x80) st))
          else lcd_print "Entrez le code:".toList (lcdEvents (Lcd.lcd_cmd 0x80) st)) = s0
    at h h0
  by_cases hk : key ≠ NUL
  · rw [if_pos hk] at h
    cases h1 : onKey key s0 with
    | none => rw [h1] at h; cases h
    | some s1 =>
      rw [h1, Option.some_bind] at h
      cases h
      have hs1 : s1.sentinelle = 0 := hs
      exact dark_congr lv _ s1 (view_vTaskDelay 100 s1) (dark_onKey lv key s0 s1 h1 h0 hs1)
  · rw [if_neg hk, Option.some_bind] at h
    cases h
    exact dark_congr lv _ s0 (view_vTaskDelay 100 s0) h0

theorem dark_loop (lv : Nat → Nat) (inputs : List (Int × Char)) (st s : State)
    (h : loop inputs st = some s) (hd : st.sentinelle = 0 → Dark lv st)
    (hs : s.sentinelle = 0) : Dark lv s := by
  induction inputs generalizing st with
  | nil =>
    cases h
    exact hd hs
  | cons x rest ih =>
    obtain ⟨button, key⟩ := x
    by_cases h0 : st.sentinelle = 0
    · simp only [loop, if_pos h0] at h
      cases h1 : iteration button key st with
      | none => rw [h1] at h; cases h
      | some s1 =>
        rw [h1, Option.some_bind] at h
        exact ih s1 h (fun e => dark_iteration lv button key st s1 h1 (hd h0) e)
    · rw [loop_done _ st h0] at h
      cases h
      exact absurd hs h0

theorem dark_start (lv : Nat → Nat) (h1 : lv Leds.LED_GPIO_EP1 = 0)
    (h2 : lv Leds.LED_GPIO_ERR = 0) : Dark lv start :=
  dark_congr lv start ⟨List.replicate 6 NUL, 0, 0, Leds.LedBank.init, []⟩ (view_lcdEvents _ _)
    ⟨rfl, rfl, rfl, h1, h2⟩

/-- C24: for every message and every LED bank, `leds_morse_sequence` leaves the success LED
object and the error LED object as they were, keeps the pin of the EP2 object, writes
levels to the pin of EP2 only, and so leaves the level of every other pin as it was; in the
program EP2 is on pin 4, EP1 on pin 5 and ERR on pin 2. In the game the call changes
neither the entry, the index nor the loop flag, and whenever a pass of the loop starts
(the flag is 0), after any button levels and scan results, both indicators are dark, in
recorded state and in pin level, and are still dark after the playback. -/
theorem morse_playback_frame (message : List Char) (bank : Leds.LedBank) (lv : Nat → Nat) :
    (Leds.leds_morse_sequence message bank).1.led_ep1 = bank.led_ep1 ∧
    (Leds.leds_morse_sequence message bank).1.led_err = bank.led_err ∧
    (Leds.leds_morse_sequence message bank).1.led_ep2.gpio = bank.led_ep2.gpio ∧
    (∀ g l, Leds.LedEvent.setLevel g l ∈ (Leds.leds_morse_sequence message bank).2 →
      g = bank.led_ep2.gpio) ∧
    (∀ pin, pin ≠ bank.led_ep2.gpio →
      Leds.pinLevels lv (Leds.leds_morse_sequence message bank).2 pin = lv pin) ∧
    (Leds.LedBank.init.led_ep2.gpio = Leds.LED_GPIO_EP2 ∧
      Leds.LedBank.init.led_ep1.gpio = Leds.LED_GPIO_EP1 ∧
      Leds.LedBank.init.led_err.gpio = Leds.LED_GPIO_ERR ∧
      Leds.LED_GPIO_EP1 ≠ Leds.LED_GPIO_EP2 ∧ Leds.LED_GPIO_ERR ≠ Leds.LED_GPIO_EP2) ∧
    (∀ st : State,
      (leds_morse_sequence message st).leds.led_ep1 = st.leds.led_ep1 ∧
      (leds_morse_sequence message st).leds.led_err = st.leds.led_err ∧
      (leds_morse_sequence message st).password = st.password ∧
      (leds_morse_sequence message st).index = st.index ∧
      (leds_morse_sequence message st).sentinelle = st.sentinelle ∧
      (leds_morse_sequence message st).log =
        st.log ++ (Leds.leds_morse_sequence message st.leds).2.map GEvent.led) ∧
    (∀ inputs s, lv Leds.LED_GPIO_EP1 = 0 → lv Leds.LED_GPIO_ERR = 0 →
      launch_game inputs = some s → s.sentinelle = 0 →
      Dark lv s ∧ Dark lv (leds_morse_sequence message s)) := by
  refine ⟨rfl, rfl, Leds.sequence_gpio message bank, Leds.sequence_pins message bank, ?_,
    ⟨rfl, rfl, rfl, by decide, by decide⟩, fun st => ⟨rfl, rfl, rfl, rfl, rfl, rfl⟩, ?_⟩
  · intro pin hpin
    apply Leds.pinLevels_other
    intro g l h
    rw [Leds.sequence_pins message bank g l h]
    exact Ne.symm hpin
  · intro inputs s h1 h2 h hs
    have hd := dark_loop lv inputs start s h (fun _ => dark_start lv h1 h2) hs
    exact ⟨hd, dark_morse lv message s hd⟩

/-- C24, instance: when the loop is entered with both indicator pins low, the hint played
in the first pass leaves them low and the two LED objects recorded as off. -/
theorem morse_playback_frame_witness :
    Dark (fun _ => 0) (leds_morse_sequence "b947d".toList start) :=
  ((morse_playback_frame "b947d".toList Leds.LedBank.init (fun _ => 0)).2.2.2.2.2.2.2
    [] start rfl rfl rfl rfl).2

end Game
